import Mathlib

/-
Verification of the Dropwizard metrics input plugin
(`plugins/inputs/dropwizard/dropwizard.go`).

The development shallowly embeds the plugin's code:

* the polymorphic gauge-value decoder `gaugeValue.UnmarshalJSON`, built on
  models of Go's `strconv.ParseInt(s, 10, 64)` and `strconv.ParseFloat(s, 64)`
  (Go >= 1.13 syntax: decimal and hex mantissas, underscores, Inf/NaN),
  and of `strings.Trim(s, "\"")`;
* the schema model (`gauge`, `counter`, `histogram`, `meter`, `timer`,
  `metrics`) and the normalizer loops of `gatherURL`;
* the orchestration of `Gather` (default URL substitution, lazy client
  construction from the TLS configuration, per-URL error annotation).

Machine floats are represented exactly: a finite `float64` is a sign plus a
natural mantissa and binary exponent, produced by exact round-to-nearest-even
on the (exact) rational value of the token; `-0` is `finite true 0 0`.
External collaborators (the HTTP client's `Get`, `encoding/json` document
decoding, `internal.GetTLSConfig`, `time.Now`, and the accumulator sink) are
oracles supplied through an environment record, as the spec treats them as
out-of-scope interfaces.  Goroutine fan-out in `Gather` is modelled as an
in-order fold over the URL list; the claims checked here do not depend on the
interleaving order, only on the per-URL record/error sets.
-/

set_option maxRecDepth 4000

namespace DW

/-! ### Character and digit utilities (models of Go byte tests) -/

def isDig (c : Char) : Bool := 48 ≤ c.toNat && c.toNat ≤ 57

def digVal (c : Char) : ℕ := c.toNat - 48

def isHexDig (c : Char) : Bool :=
  isDig c || (97 ≤ c.toNat && c.toNat ≤ 102) || (65 ≤ c.toNat && c.toNat ≤ 70)

def hexVal (c : Char) : ℕ :=
  if isDig c then digVal c
  else if 97 ≤ c.toNat && c.toNat ≤ 102 then c.toNat - 97 + 10
  else c.toNat - 65 + 10

/-- Value of a base-10 digit string (most significant first). -/
def natOfDigits (ds : List Char) : ℕ := ds.foldl (fun a c => 10 * a + digVal c) 0

/-! ### Binary length of a natural number

`bitLen n` is the least `L` with `n < 2 ^ L`.  It is computed by squaring up
to an upper bound and then bisecting, so that kernel reduction stays shallow
even for numbers with hundreds of digits. -/

def capExpAux (n : ℕ) : ℕ → ℕ → ℕ → ℕ
  | 0, e, _ => e
  | fuel + 1, e, p => if n < p then e else capExpAux n fuel (2 * e) (p * p)

def bisectAux (n : ℕ) : ℕ → ℕ → ℕ → ℕ
  | 0, _, hi => hi
  | fuel + 1, lo, hi =>
    if hi ≤ lo + 1 then hi
    else if n < 2 ^ ((lo + hi) / 2) then bisectAux n fuel lo ((lo + hi) / 2)
    else bisectAux n fuel ((lo + hi) / 2) hi

def bitLen (n : ℕ) : ℕ :=
  if n = 0 then 0 else bisectAux n (n + 2) 0 (capExpAux n (n + 1) 1 2)

theorem capExpAux_spec (n : ℕ) :
    ∀ fuel e p, p = 2 ^ e → n < 2 ^ (e * 2 ^ fuel) →
      n < 2 ^ capExpAux n fuel e p ∧ capExpAux n fuel e p ≤ e * 2 ^ fuel := by
  intro fuel
  induction fuel with
  | zero =>
    intro e p hp hn
    simpa [capExpAux] using hn
  | succ fuel ih =>
    intro e p hp hn
    subst hp
    by_cases hlt : n < 2 ^ e
    · constructor
      · simp [capExpAux, hlt]
      · have h1 : e ≤ e * 2 ^ (fuel + 1) := Nat.le_mul_of_pos_right e (by positivity)
        simpa [capExpAux, hlt] using h1
    · have hexp : 2 * e * 2 ^ fuel = e * 2 ^ (fuel + 1) := by ring
      have hpp : 2 ^ e * 2 ^ e = 2 ^ (2 * e) := by rw [← pow_add]; congr 1; ring
      have h2 := ih (2 * e) (2 ^ e * 2 ^ e) hpp (by rw [hexp]; exact hn)
      rw [hexp] at h2
      simpa [capExpAux, hlt] using h2

theorem bisectAux_spec (n : ℕ) :
    ∀ fuel lo hi, 2 ^ lo ≤ n → n < 2 ^ hi → lo < hi → hi - lo ≤ 2 ^ fuel →
      2 ^ (bisectAux n fuel lo hi - 1) ≤ n ∧ n < 2 ^ bisectAux n fuel lo hi := by
  intro fuel
  induction fuel with
  | zero =>
    intro lo hi hlo hhi hlt hle
    have hhi1 : hi = lo + 1 := by simpa using by omega
    subst hhi1
    exact ⟨by simpa using hlo, by simpa [bisectAux] using hhi⟩
  | succ fuel ih =>
    intro lo hi hlo hhi hlt hle
    by_cases h1 : hi ≤ lo + 1
    · have hhi1 : hi = lo + 1 := by omega
      subst hhi1
      exact ⟨by simpa [bisectAux] using hlo, by simpa [bisectAux] using hhi⟩
    · have hp : (2 : ℕ) ^ (fuel + 1) = 2 * 2 ^ fuel := by rw [pow_succ]; ring
      by_cases h2 : n < 2 ^ ((lo + hi) / 2)
      · have := ih lo ((lo + hi) / 2) hlo h2 (by omega) (by omega)
        simpa [bisectAux, h1, h2] using this
      · have hge : 2 ^ ((lo + hi) / 2) ≤ n := Nat.le_of_not_lt h2
        have := ih ((lo + hi) / 2) hi hge hhi (by omega) (by omega)
        simpa [bisectAux, h1, h2] using this

theorem bitLen_spec (n : ℕ) (h : n ≠ 0) :
    2 ^ (bitLen n - 1) ≤ n ∧ n < 2 ^ bitLen n := by
  have hn1 : 1 ≤ n := Nat.one_le_iff_ne_zero.mpr h
  have hbig : n < 2 ^ (1 * 2 ^ (n + 1)) := by
    have h1 : n < 2 ^ n := Nat.lt_two_pow n
    have h2 : n ≤ 2 ^ (n + 1) := by
      calc n ≤ 2 ^ n := le_of_lt h1
        _ ≤ 2 ^ (n + 1) := Nat.pow_le_pow_right (by norm_num) (Nat.le_succ n)
    calc n < 2 ^ n := h1
      _ ≤ 2 ^ (1 * 2 ^ (n + 1)) := Nat.pow_le_pow_right (by norm_num) (by omega)
  have hcap := capExpAux_spec n (n + 1) 1 2 (by norm_num) hbig
  obtain ⟨hhi, hbound⟩ := hcap
  have hhi0 : 0 < capExpAux n (n + 1) 1 2 := by
    by_contra hc
    have : capExpAux n (n + 1) 1 2 = 0 := by omega
    rw [this] at hhi
    simp at hhi
    omega
  have hle : capExpAux n (n + 1) 1 2 - 0 ≤ 2 ^ (n + 2) := by
    have : (1 : ℕ) * 2 ^ (n + 1) ≤ 2 ^ (n + 2) := by
      simpa using Nat.pow_le_pow_right (by norm_num : 1 ≤ 2) (Nat.le_succ (n + 1))
    omega
  have := bisectAux_spec n (n + 2) 0 (capExpAux n (n + 1) 1 2)
    (by simpa using hn1) hhi hhi0 hle
  rw [bitLen, if_neg h]
  exact this

/-! ### Round half to even (model of IEEE-754 unbiased rounding of `N / D`) -/

def rhoNat (N D : ℕ) : ℕ :=
  if 2 * (N % D) < D then N / D
  else if D < 2 * (N % D) then N / D + 1
  else if N / D % 2 = 0 then N / D else N / D + 1

theorem rhoNat_cases (N D : ℕ) :
    rhoNat N D = N / D ∨ rhoNat N D = N / D + 1 := by
  unfold rhoNat
  by_cases h1 : 2 * (N % D) < D
  · simp [h1]
  · by_cases h2 : D < 2 * (N % D)
    · simp [h1, h2]
    · by_cases h3 : N / D % 2 = 0 <;> simp [h1, h2, h3]

theorem rhoNat_le (N D : ℕ) : rhoNat N D ≤ N / D + 1 := by
  rcases rhoNat_cases N D with h | h <;> omega

theorem rhoNat_ge (N D : ℕ) : N / D ≤ rhoNat N D := by
  rcases rhoNat_cases N D with h | h <;> omega

theorem rhoNat_tie_up (N D : ℕ) (h1 : D ≤ 2 * (N % D)) (h2 : N / D % 2 = 1) :
    rhoNat N D = N / D + 1 := by
  unfold rhoNat
  have hn1 : ¬ 2 * (N % D) < D := by omega
  by_cases hc : D < 2 * (N % D)
  · simp [hn1, hc]
  · have hn2 : ¬ N / D % 2 = 0 := by omega
    simp [hn1, hc, hn2]

/-- Any integer multiple of `D` is at distance at least `min r (D - r)` from
`D * dq + r`. -/
theorem int_grid_lower (dq r D k : ℤ) (hD : 0 < D) :
    min r (D - r) ≤ |k * D - (D * dq + r)| := by
  rcases le_or_lt k dq with hk | hk
  · have hmul : k * D ≤ dq * D := mul_le_mul_of_nonneg_right hk (le_of_lt hD)
    have h3 : r ≤ -(k * D - (D * dq + r)) := by nlinarith
    calc min r (D - r) ≤ r := min_le_left _ _
      _ ≤ |k * D - (D * dq + r)| := le_trans h3 (neg_le_abs _)
  · have hk1 : dq + 1 ≤ k := hk
    have hmul : (dq + 1) * D ≤ k * D := mul_le_mul_of_nonneg_right hk1 (le_of_lt hD)
    have h2 : D - r ≤ k * D - (D * dq + r) := by nlinarith
    calc min r (D - r) ≤ D - r := min_le_right _ _
      _ ≤ k * D - (D * dq + r) := h2
      _ ≤ |k * D - (D * dq + r)| := le_abs_self _

theorem rhoNat_dist (N D : ℕ) (hD : 0 < D) :
    2 * |(rhoNat N D : ℤ) * D - N| ≤ D := by
  have hrlt : N % D < D := Nat.mod_lt _ hD
  have hrz : ((N % D : ℕ) : ℤ) < (D : ℤ) := by exact_mod_cast hrlt
  have hr0 : (0 : ℤ) ≤ ((N % D : ℕ) : ℤ) := by positivity
  have hNZ : (N : ℤ) = (D : ℤ) * ((N / D : ℕ) : ℤ) + ((N % D : ℕ) : ℤ) := by
    exact_mod_cast (Nat.div_add_mod N D).symm
  by_cases h1 : 2 * (N % D) < D
  · have hv : rhoNat N D = N / D := by simp [rhoNat, h1]
    have heq : ((N / D : ℕ) : ℤ) * D - N = -((N % D : ℕ) : ℤ) := by rw [hNZ]; ring
    rw [hv, heq, abs_neg, abs_of_nonneg hr0]
    have h1z : 2 * ((N % D : ℕ) : ℤ) < (D : ℤ) := by exact_mod_cast h1
    linarith
  · by_cases h2 : D < 2 * (N % D)
    · have hv : rhoNat N D = N / D + 1 := by simp [rhoNat, h1, h2]
      have heq : ((N / D + 1 : ℕ) : ℤ) * D - N = (D : ℤ) - ((N % D : ℕ) : ℤ) := by
        rw [hNZ]; push_cast; ring
      rw [hv, heq, abs_of_nonneg (by linarith)]
      have h2z : (D : ℤ) < 2 * ((N % D : ℕ) : ℤ) := by exact_mod_cast h2
      linarith
    · have htie : 2 * (N % D) = D := by omega
      have htz : 2 * ((N % D : ℕ) : ℤ) = (D : ℤ) := by exact_mod_cast htie
      rcases rhoNat_cases N D with hv | hv
      · have heq : ((N / D : ℕ) : ℤ) * D - N = -((N % D : ℕ) : ℤ) := by rw [hNZ]; ring
        rw [hv, heq, abs_neg, abs_of_nonneg hr0]
        linarith
      · have heq : ((N / D + 1 : ℕ) : ℤ) * D - N = (D : ℤ) - ((N % D : ℕ) : ℤ) := by
          rw [hNZ]; push_cast; ring
        rw [hv, heq, abs_of_nonneg (by linarith)]
        linarith

theorem rhoNat_nearest (N D : ℕ) (hD : 0 < D) (k : ℤ) :
    |(rhoNat N D : ℤ) * D - N| ≤ |k * D - N| := by
  have hrlt : N % D < D := Nat.mod_lt _ hD
  have hrz : ((N % D : ℕ) : ℤ) < (D : ℤ) := by exact_mod_cast hrlt
  have hr0 : (0 : ℤ) ≤ ((N % D : ℕ) : ℤ) := by positivity
  have hNZ : (N : ℤ) = (D : ℤ) * ((N / D : ℕ) : ℤ) + ((N % D : ℕ) : ℤ) := by
    exact_mod_cast (Nat.div_add_mod N D).symm
  have hlow := int_grid_lower ((N / D : ℕ) : ℤ) ((N % D : ℕ) : ℤ) (D : ℤ) k
    (by exact_mod_cast hD)
  rw [← hNZ] at hlow
  by_cases h1 : 2 * (N % D) < D
  · have hv : rhoNat N D = N / D := by simp [rhoNat, h1]
    have heq : ((N / D : ℕ) : ℤ) * D - N = -((N % D : ℕ) : ℤ) := by rw [hNZ]; ring
    rw [hv, heq, abs_neg, abs_of_nonneg hr0]
    have h1z : 2 * ((N % D : ℕ) : ℤ) < (D : ℤ) := by exact_mod_cast h1
    have hmin : min ((N % D : ℕ) : ℤ) ((D : ℤ) - ((N % D : ℕ) : ℤ)) = ((N % D : ℕ) : ℤ) :=
      min_eq_left (by linarith)
    rw [hmin] at hlow
    exact hlow
  · by_cases h2 : D < 2 * (N % D)
    · have hv : rhoNat N D = N / D + 1 := by simp [rhoNat, h1, h2]
      have heq : ((N / D + 1 : ℕ) : ℤ) * D - N = (D : ℤ) - ((N % D : ℕ) : ℤ) := by
        rw [hNZ]; push_cast; ring
      rw [hv, heq, abs_of_nonneg (by linarith)]
      have h2z : (D : ℤ) < 2 * ((N % D : ℕ) : ℤ) := by exact_mod_cast h2
      have hmin : min ((N % D : ℕ) : ℤ) ((D : ℤ) - ((N % D : ℕ) : ℤ)) =
          (D : ℤ) - ((N % D : ℕ) : ℤ) := min_eq_right (by linarith)
      rw [hmin] at hlow
      exact hlow
    · have htie : 2 * (N % D) = D := by omega
      have htz : 2 * ((N % D : ℕ) : ℤ) = (D : ℤ) := by exact_mod_cast htie
      have hdr : (D : ℤ) - ((N % D : ℕ) : ℤ) = ((N % D : ℕ) : ℤ) := by linarith
      rcases rhoNat_cases N D with hv | hv
      · have heq : ((N / D : ℕ) : ℤ) * D - N = -((N % D : ℕ) : ℤ) := by rw [hNZ]; ring
        rw [hv, heq, abs_neg, abs_of_nonneg hr0]
        rw [hdr, min_self] at hlow
        exact hlow
      · have heq : ((N / D + 1 : ℕ) : ℤ) * D - N = (D : ℤ) - ((N % D : ℕ) : ℤ) := by
          rw [hNZ]; push_cast; ring
        rw [hv, heq, abs_of_nonneg (by linarith), hdr]
        rw [hdr, min_self] at hlow
        exact hlow

/-! ### Exact model of `float64` values

A finite `float64` is `(-1)^neg * mant * 2^exp` with `mant < 2^53` and
`-1074 ≤ exp`; `finite true 0 0` is IEEE `-0`.  Values are produced only by
the exact rounding below, so representations are canonical. -/

inductive F64 where
  | finite (neg : Bool) (mant : ℕ) (exp : ℤ)
  | inf (neg : Bool)
  | nan
deriving DecidableEq

/-- Exact rational value of a finite `float64` (`none` for infinities/NaN). -/
def F64.val : F64 → Option ℚ
  | .finite neg m e => some ((if neg then (-1 : ℚ) else 1) * m * (2 : ℚ) ^ e)
  | _ => none

/-- `⌊log2 (a / b)⌋` for naturals `a b ≥ 1`. -/
def qGe2Pow (a b : ℕ) (e : ℤ) : Bool :=
  if 0 ≤ e then b * 2 ^ e.toNat ≤ a else b ≤ a * 2 ^ (-e).toNat

def floorLog2Q (a b : ℕ) : ℤ :=
  let e0 : ℤ := (bitLen a : ℤ) - (bitLen b : ℤ)
  if qGe2Pow a b e0 then e0 else e0 - 1

/-- Round the positive rational `a / b` to the nearest `float64`
(round half to even), returning the canonical mantissa/exponent pair, or
`none` on overflow to infinity (Go's `strconv` `ErrRange`).  Nonzero values
that round to zero are returned as `(0, 0)`, as Go reports no error for
underflow. -/
def roundFloat64 (a b : ℕ) : Option (ℕ × ℤ) :=
  if a = 0 then some (0, 0)
  else
    let e := floorLog2Q a b
    let p : ℤ := max (e - 52) (-1074)
    let N : ℕ := if 0 ≤ p then a else a * 2 ^ (-p).toNat
    let D : ℕ := if 0 ≤ p then b * 2 ^ p.toNat else b
    let m := rhoNat N D
    if 0 ≤ p ∧ 2 ^ 1024 ≤ m * 2 ^ p.toNat then none
    else if m = 2 ^ 53 then some (2 ^ 52, p + 1)
    else if m = 0 then some (0, 0)
    else some (m, p)

/-! ### Model of Go's `strconv.ParseFloat(s, 64)` syntax (Go >= 1.13) -/

/-- Scan a run of digits: returns the accumulated value, the number of digits
consumed, and the rest of the input. -/
def scanDigitsAux (base : ℕ) (isD : Char → Bool) (val : Char → ℕ) :
    List Char → ℕ → ℕ → ℕ × ℕ × List Char
  | [], acc, cnt => (acc, cnt, [])
  | c :: cs, acc, cnt =>
    if isD c then scanDigitsAux base isD val cs (base * acc + val c) (cnt + 1)
    else (acc, cnt, c :: cs)

/-- Parse a mandatory exponent part (`e`/`E` or `p`/`P`, optional sign, at
least one digit, nothing after), as in `strconv`'s `readFloat`. -/
def parseExpPart (expChars : List Char) (cs : List Char) : Option ℤ :=
  match cs with
  | [] => none
  | c :: r1 =>
    if expChars.contains c then
      let sr : ℤ × List Char :=
        match r1 with
        | c2 :: t => if c2 = '+' then (1, t) else if c2 = '-' then (-1, t) else (1, c2 :: t)
        | [] => (1, [])
      let sc := scanDigitsAux 10 isDig digVal sr.2 0 0
      if sc.2.1 = 0 then none
      else if sc.2.2 ≠ [] then none
      else some (sr.1 * (sc.1 : ℤ))
    else none

/-- Decimal mantissa with optional fraction and optional decimal exponent;
result is `(M, e)` with value `M * 10 ^ e`. -/
def parseDecTail (cs : List Char) : Option (ℕ × ℤ) :=
  let s1 := scanDigitsAux 10 isDig digVal cs 0 0
  match s1.2.2 with
  | '.' :: r2 =>
    let s2 := scanDigitsAux 10 isDig digVal r2 s1.1 0
    if s1.2.1 + s2.2.1 = 0 then none
    else
      match s2.2.2 with
      | [] => some (s2.1, -(s2.2.1 : ℤ))
      | rest =>
        match parseExpPart ['e', 'E'] rest with
        | none => none
        | some ex => some (s2.1, ex - (s2.2.1 : ℤ))
  | r1 =>
    if s1.2.1 = 0 then none
    else
      match r1 with
      | [] => some (s1.1, 0)
      | rest =>
        match parseExpPart ['e', 'E'] rest with
        | none => none
        | some ex => some (s1.1, ex)

/-- Hex mantissa with optional fraction and mandatory binary exponent;
result is `(M, e)` with value `M * 2 ^ e`. -/
def parseHexTail (cs : List Char) : Option (ℕ × ℤ) :=
  let s1 := scanDigitsAux 16 isHexDig hexVal cs 0 0
  match s1.2.2 with
  | '.' :: r2 =>
    let s2 := scanDigitsAux 16 isHexDig hexVal r2 s1.1 0
    if s1.2.1 + s2.2.1 = 0 then none
    else
      match parseExpPart ['p', 'P'] s2.2.2 with
      | none => none
      | some ex => some (s2.1, ex - 4 * (s2.2.1 : ℤ))
  | r1 =>
    if s1.2.1 = 0 then none
    else
      match parseExpPart ['p', 'P'] r1 with
      | none => none
      | some ex => some (s1.1, ex)

/-- The exact value `M * 10 ^ e` as a fraction of naturals. -/
def decValue (M : ℕ) (e : ℤ) : ℕ × ℕ :=
  if 0 ≤ e then (M * 10 ^ e.toNat, 1) else (M, 10 ^ (-e).toNat)

/-- The exact value `M * 2 ^ e` as a fraction of naturals. -/
def hexScaled (M : ℕ) (e : ℤ) : ℕ × ℕ :=
  if 0 ≤ e then (M * 2 ^ e.toNat, 1) else (M, 2 ^ (-e).toNat)

/-- Model of `strconv`'s `underscoreOK`: underscores may only separate
successive digits (or follow a base prefix). -/
def underscoreOKAux (hex : Bool) : Char → List Char → Bool
  | saw, [] => saw ≠ '_'
  | saw, c :: cs =>
    if isDig c || (hex && isHexDig c) then underscoreOKAux hex '0' cs
    else if c = '_' then saw = '0' && underscoreOKAux hex '_' cs
    else if saw = '_' then false
    else underscoreOKAux hex '!' cs

def underscoreOK (cs : List Char) : Bool :=
  let cs1 :=
    match cs with
    | c :: t => if c = '+' || c = '-' then t else cs
    | [] => cs
  match cs1 with
  | '0' :: x :: rest =>
    if x = 'x' || x = 'X' then underscoreOKAux true '0' rest
    else underscoreOKAux false '^' cs1
  | _ => underscoreOKAux false '^' cs1

def lowerEq (cs : List Char) (t : List Char) : Bool := cs.map Char.toLower == t

/-- Model of `strconv`'s `special`: case-insensitive `inf`/`infinity` with an
optional sign, and unsigned `nan`. -/
def specialFloat (cs : List Char) : Option F64 :=
  match cs with
  | [] => none
  | c :: rest =>
    if c = '+' || c = '-' then
      if lowerEq rest ['i', 'n', 'f'] ||
          lowerEq rest ['i', 'n', 'f', 'i', 'n', 'i', 't', 'y'] then
        some (.inf (c = '-'))
      else none
    else
      if lowerEq cs ['i', 'n', 'f'] ||
          lowerEq cs ['i', 'n', 'f', 'i', 'n', 'i', 't', 'y'] then
        some (.inf false)
      else if lowerEq cs ['n', 'a', 'n'] then some .nan
      else none

/-- Magnitude (after the sign) of a float token as an exact fraction. -/
def parseFloatVal (cs : List Char) : Option (ℕ × ℕ) :=
  match cs with
  | c0 :: c1 :: rest =>
    if c0 = '0' && (c1 = 'x' || c1 = 'X') then
      (parseHexTail rest).map (fun p => hexScaled p.1 p.2)
    else (parseDecTail cs).map (fun p => decValue p.1 p.2)
  | _ => (parseDecTail cs).map (fun p => decValue p.1 p.2)

/-- Model of Go's `strconv.ParseFloat(s, 64)`: `none` exactly when Go returns
a non-nil error (syntax error, or overflow to infinity); otherwise the exact
`float64` result.  Exponent values are not capped at `10^4` as in Go's
scanner; the capping never changes the rounded result, only the cost. -/
def parseFloat64 (s : String) : Option F64 :=
  let cs := s.data
  match specialFloat cs with
  | some f => some f
  | none =>
    if cs.contains '_' && !underscoreOK cs then none
    else
      let cleaned := cs.filter (fun c => c != '_')
      let sgn : Bool × List Char :=
        match cleaned with
        | c :: t =>
          if c = '-' then (true, t) else if c = '+' then (false, t) else (false, c :: t)
        | [] => (false, [])
      match parseFloatVal sgn.2 with
      | none => none
      | some ab =>
        match roundFloat64 ab.1 ab.2 with
        | none => none
        | some me => some (.finite sgn.1 me.1 me.2)

/-! ### Model of Go's `strconv.ParseInt(s, 10, 64)` -/

/-- `none` exactly when Go returns a non-nil error: empty or non-digit input,
or a value outside `[-2^63, 2^63 - 1]`. -/
def parseInt64 (s : String) : Option ℤ :=
  match s.data with
  | [] => none
  | c :: cs =>
    let ds := if c = '+' || c = '-' then cs else c :: cs
    if ds.isEmpty then none
    else if ds.all isDig then
      if c = '-' then
        if natOfDigits ds ≤ 9223372036854775808 then some (-(natOfDigits ds : ℤ))
        else none
      else
        if natOfDigits ds ≤ 9223372036854775807 then some ((natOfDigits ds : ℤ))
        else none
    else none

/-- Model of `strings.Trim(s, "\"")`: remove every leading and trailing
double-quote character. -/
def stringsTrimQuote (s : String) : String :=
  String.mk (((s.data.dropWhile (· == '"')).reverse.dropWhile (· == '"')).reverse)

/-! ### The polymorphic gauge value decoder (`gaugeValue.UnmarshalJSON`) -/

inductive gaugeValueType where
  | IntType
  | FloatType
  | StringType
deriving DecidableEq

structure gaugeValue where
  IntValue : ℤ := 0
  FloatValue : F64 := .finite false 0 0
  StringValue : String := ""
  typ : gaugeValueType
deriving DecidableEq

/-- Translation of `gaugeValue.UnmarshalJSON`: integer parse first, then
float, then fall back to the quote-trimmed string; never returns an error. -/
def gaugeValue.UnmarshalJSON (b : String) : Except String gaugeValue :=
  match parseInt64 b with
  | some intValue => .ok { IntValue := intValue, typ := .IntType }
  | none =>
    match parseFloat64 b with
    | some floatValue => .ok { FloatValue := floatValue, typ := .FloatType }
    | none => .ok { StringValue := stringsTrimQuote b, typ := .StringType }

/-! ### Schema model (translations of the Go struct types)

Go maps from metric name to payload are embedded as association lists; the
spec declares iteration order irrelevant, and no claim depends on it. -/

structure gauge where
  Value : gaugeValue
deriving DecidableEq

structure counter where
  Count : ℤ
deriving DecidableEq

structure histogram where
  Count : ℤ
  Max : ℤ
  Mean : F64
  Min : ℤ
  P50 : F64
  P75 : F64
  P95 : F64
  P98 : F64
  P99 : F64
  P999 : F64
  Stddev : F64
deriving DecidableEq

structure meter where
  Count : ℤ
  M15Rate : F64
  M1Rate : F64
  M5Rate : F64
  MeanRate : F64
  Units : String
deriving DecidableEq

structure timer where
  Count : ℤ
  Max : F64
  Mean : F64
  Min : F64
  P50 : F64
  P75 : F64
  P95 : F64
  P98 : F64
  P99 : F64
  P999 : F64
  Stddev : F64
  M15Rate : F64
  M1Rate : F64
  M5Rate : F64
  MeanRate : F64
  DurationUnits : String
  RateUnits : String
deriving DecidableEq

structure metrics where
  Version : String := ""
  Gauges : List (String × gauge) := []
  Counters : List (String × counter) := []
  Histograms : List (String × histogram) := []
  Meters : List (String × meter) := []
  Timers : List (String × timer) := []
deriving DecidableEq

/-! ### Output records and the accumulator sink

Modelled from the spec: the `telegraf.Accumulator` collaborator (spec section
6) receives one call per record through one of the kind-selector methods
`AddGauge` / `AddCounter` / `AddHistogram` / `AddFields`, plus `AddError`;
it is external to the repository, so it is embedded as an append-only pair
of record and error lists. -/

inductive FieldValue where
  | int (i : ℤ)
  | float (f : F64)
deriving DecidableEq

inductive SinkMethod where
  | addGauge
  | addCounter
  | addHistogram
  | addFields
deriving DecidableEq

structure OutputRecord where
  method : SinkMethod
  name : String
  fields : List (String × FieldValue)
  tags : Option (List (String × String))
  time : ℕ
deriving DecidableEq

structure Accumulator where
  records : List OutputRecord := []
  errors : List String := []
deriving DecidableEq

def Accumulator.addRecord (acc : Accumulator) (r : OutputRecord) : Accumulator :=
  { acc with records := acc.records ++ [r] }

def Accumulator.addError (acc : Accumulator) (e : String) : Accumulator :=
  { acc with errors := acc.errors ++ [e] }

/-! ### The normalizer loops of `gatherURL` -/

/-- The gauge loop: emits `{value}` for Integer and Float variants, nothing
for String variants. -/
def addGauges (now : ℕ) : List (String × gauge) → Accumulator → Accumulator
  | [], acc => acc
  | (name, g) :: rest, acc =>
    let acc1 :=
      if g.Value.typ = .IntType then
        acc.addRecord
          { method := .addGauge, name := name,
            fields := [("value", .int g.Value.IntValue)], tags := none, time := now }
      else if g.Value.typ = .FloatType then
        acc.addRecord
          { method := .addGauge, name := name,
            fields := [("value", .float g.Value.FloatValue)], tags := none, time := now }
      else acc
    addGauges now rest acc1

def addCounters (now : ℕ) : List (String × counter) → Accumulator → Accumulator
  | [], acc => acc
  | (name, c) :: rest, acc =>
    addCounters now rest
      (acc.addRecord
        { method := .addCounter, name := name,
          fields := [("count", .int c.Count)], tags := none, time := now })

def histogramFields (h : histogram) : List (String × FieldValue) :=
  [("count", .int h.Count), ("max", .int h.Max), ("mean", .float h.Mean),
   ("min", .int h.Min), ("p50", .float h.P50), ("p75", .float h.P75),
   ("p95", .float h.P95), ("p98", .float h.P98), ("p99", .float h.P99),
   ("p999", .float h.P999), ("stddev", .float h.Stddev)]

def addHistograms (now : ℕ) : List (String × histogram) → Accumulator → Accumulator
  | [], acc => acc
  | (name, h) :: rest, acc =>
    addHistograms now rest
      (acc.addRecord
        { method := .addHistogram, name := name,
          fields := histogramFields h, tags := none, time := now })

def meterFields (m : meter) : List (String × FieldValue) :=
  [("count", .int m.Count), ("m15_rate", .float m.M15Rate),
   ("m1_rate", .float m.M1Rate), ("m5_rate", .float m.M5Rate),
   ("mean_rate", .float m.MeanRate)]

/-- The meter loop calls `acc.AddHistogram`, the same sink method as the
histogram loop. -/
def addMeters (now : ℕ) : List (String × meter) → Accumulator → Accumulator
  | [], acc => acc
  | (name, m) :: rest, acc =>
    addMeters now rest
      (acc.addRecord
        { method := .addHistogram, name := name,
          fields := meterFields m, tags := none, time := now })

def timerFields (t : timer) : List (String × FieldValue) :=
  [("count", .int t.Count), ("max", .float t.Max), ("mean", .float t.Mean),
   ("min", .float t.Min), ("p50", .float t.P50), ("p75", .float t.P75),
   ("p95", .float t.P95), ("p98", .float t.P98), ("p99", .float t.P99),
   ("p999", .float t.P999), ("stddev", .float t.Stddev),
   ("m15_rate", .float t.M15Rate), ("m1_rate", .float t.M1Rate),
   ("m5_rate", .float t.M5Rate), ("mean_rate", .float t.MeanRate)]

/-- The timer loop calls the generic `acc.AddFields`. -/
def addTimers (now : ℕ) : List (String × timer) → Accumulator → Accumulator
  | [], acc => acc
  | (name, t) :: rest, acc =>
    addTimers now rest
      (acc.addRecord
        { method := .addFields, name := name,
          fields := timerFields t, tags := none, time := now })

/-- The five loops of `gatherURL`, in source order. -/
def runLoops (m : metrics) (now : ℕ) (acc : Accumulator) : Accumulator :=
  addTimers now m.Timers
    (addMeters now m.Meters
      (addHistograms now m.Histograms
        (addCounters now m.Counters
          (addGauges now m.Gauges acc))))

/-! ### The plugin type and orchestration -/

structure TLSConfig where
  insecureSkipVerify : Bool := false
deriving DecidableEq

structure HTTPTransport where
  responseHeaderTimeout : ℕ := 0
  tlsClientConfig : TLSConfig := {}
deriving DecidableEq

structure HTTPClient where
  transport : HTTPTransport := {}
  timeout : ℕ := 0
deriving DecidableEq

structure Dropwizard where
  URLs : List String := []
  SSLCA : String := ""
  SSLCert : String := ""
  SSLKey : String := ""
  InsecureSkipVerify : Bool := false
  Timeout : ℕ := 0
  client : Option HTTPClient := none
deriving DecidableEq

/-- Modelled from the spec: the external collaborators of one collection
pass.  `tlsConfig` is the result of `internal.GetTLSConfig` on the plugin's
TLS material; `get` is `client.Get` (body on success); `jsonDecode` is
`encoding/json` decoding of a body into the schema model, an atomic parse;
`clock` is `time.Now()` as observed at the start of each URL's pipeline. -/
structure HttpEnv where
  tlsConfig : Except String TLSConfig
  get : String → Except String String
  jsonDecode : String → Except String metrics
  clock : String → ℕ

/-- Translation of `DecodeJSONMetrics`: delegate to the JSON decoder,
propagating its error unchanged (no partial result on failure). -/
def DecodeJSONMetrics (env : HttpEnv) (body : String) : Except String metrics :=
  match env.jsonDecode body with
  | .error err => .error err
  | .ok decodedMetrics => .ok decodedMetrics

/-- Translation of `gatherURL`: capture `now`, perform the GET, decode, then
run the five normalizer loops; on any error, report it and add nothing. -/
def gatherURL (env : HttpEnv) (url : String) (acc : Accumulator) :
    Accumulator × Option String :=
  let now := env.clock url
  match env.get url with
  | .error err => (acc, some err)
  | .ok body =>
    match DecodeJSONMetrics env body with
    | .error err => (acc, some err)
    | .ok m => (runLoops m now acc, none)

def defaultURL : String := "http://localhost:8081/metrics"

/-- The per-URL fan-out of `Gather`.  The goroutines are modelled by an
in-order fold; each URL's error is annotated `[url=...]: ...` exactly as in
the source. -/
def gatherAllURLs (env : HttpEnv) : List String → Accumulator → Accumulator
  | [], acc => acc
  | url :: rest, acc =>
    let step :=
      match gatherURL env url acc with
      | (acc1, some err) => acc1.addError ("[url=" ++ url ++ "]: " ++ err)
      | (acc1, none) => acc1
    gatherAllURLs env rest step

/-- Translation of `Gather`: default-URL substitution, lazy client
construction (fatal on TLS configuration error, before any URL task), then
the per-URL fan-out.  Returns the mutated plugin value, the pass-level
result, and the accumulator. -/
def Gather (d : Dropwizard) (env : HttpEnv) :
    Dropwizard × Except String Unit × Accumulator :=
  let d1 := if d.URLs = [] then { d with URLs := [defaultURL] } else d
  match d1.client with
  | none =>
    match env.tlsConfig with
    | .error err => (d1, .error err, {})
    | .ok tlsCfg =>
      let d2 := { d1 with
        client := some { transport := { responseHeaderTimeout := d1.Timeout,
                                        tlsClientConfig := tlsCfg },
                         timeout := d1.Timeout } }
      (d2, .ok (), gatherAllURLs env d2.URLs {})
  | some _ => (d1, .ok (), gatherAllURLs env d1.URLs {})

/-! ### Functional characterization of the normalizer -/

def gaugeRecordOf (now : ℕ) (p : String × gauge) : Option OutputRecord :=
  if p.2.Value.typ = .IntType then
    some { method := .addGauge, name := p.1,
           fields := [("value", .int p.2.Value.IntValue)], tags := none, time := now }
  else if p.2.Value.typ = .FloatType then
    some { method := .addGauge, name := p.1,
           fields := [("value", .float p.2.Value.FloatValue)], tags := none, time := now }
  else none

def counterRecordOf (now : ℕ) (p : String × counter) : OutputRecord :=
  { method := .addCounter, name := p.1,
    fields := [("count", .int p.2.Count)], tags := none, time := now }

def histogramRecordOf (now : ℕ) (p : String × histogram) : OutputRecord :=
  { method := .addHistogram, name := p.1,
    fields := histogramFields p.2, tags := none, time := now }

def meterRecordOf (now : ℕ) (p : String × meter) : OutputRecord :=
  { method := .addHistogram, name := p.1,
    fields := meterFields p.2, tags := none, time := now }

def timerRecordOf (now : ℕ) (p : String × timer) : OutputRecord :=
  { method := .addFields, name := p.1,
    fields := timerFields p.2, tags := none, time := now }

def specRecords (m : metrics) (now : ℕ) : List OutputRecord :=
  m.Gauges.filterMap (gaugeRecordOf now) ++ m.Counters.map (counterRecordOf now)
    ++ m.Histograms.map (histogramRecordOf now)
    ++ m.Meters.map (meterRecordOf now)
    ++ m.Timers.map (timerRecordOf now)

/-- Records produced by one `gatherURL` invocation for one endpoint. -/
def normalizeDoc (m : metrics) (now : ℕ) : List OutputRecord :=
  (runLoops m now {}).records

theorem addGauges_eq (now : ℕ) :
    ∀ (gs : List (String × gauge)) (acc : Accumulator),
      addGauges now gs acc =
        { acc with records := acc.records ++ gs.filterMap (gaugeRecordOf now) } := by
  intro gs
  induction gs with
  | nil => intro acc; simp [addGauges]
  | cons p rest ih =>
    intro acc
    rcases p with ⟨name, g⟩
    by_cases h1 : g.Value.typ = gaugeValueType.IntType
    · simp [addGauges, h1, Accumulator.addRecord, ih, gaugeRecordOf]
    · by_cases h2 : g.Value.typ = gaugeValueType.FloatType
      · simp [addGauges, h1, h2, Accumulator.addRecord, ih, gaugeRecordOf]
      · simp [addGauges, h1, h2, Accumulator.addRecord, ih, gaugeRecordOf]

theorem addCounters_eq (now : ℕ) :
    ∀ (cs : List (String × counter)) (acc : Accumulator),
      addCounters now cs acc =
        { acc with records := acc.records ++ cs.map (counterRecordOf now) } := by
  intro cs
  induction cs with
  | nil => intro acc; simp [addCounters]
  | cons p rest ih =>
    intro acc
    rcases p with ⟨name, c⟩
    simp [addCounters, Accumulator.addRecord, ih, counterRecordOf]

theorem addHistograms_eq (now : ℕ) :
    ∀ (hs : List (String × histogram)) (acc : Accumulator),
      addHistograms now hs acc =
        { acc with records := acc.records ++ hs.map (histogramRecordOf now) } := by
  intro hs
  induction hs with
  | nil => intro acc; simp [addHistograms]
  | cons p rest ih =>
    intro acc
    rcases p with ⟨name, h⟩
    simp [addHistograms, Accumulator.addRecord, ih, histogramRecordOf]

theorem addMeters_eq (now : ℕ) :
    ∀ (ms : List (String × meter)) (acc : Accumulator),
      addMeters now ms acc =
        { acc with records := acc.records ++ ms.map (meterRecordOf now) } := by
  intro ms
  induction ms with
  | nil => intro acc; simp [addMeters]
  | cons p rest ih =>
    intro acc
    rcases p with ⟨name, mm⟩
    simp [addMeters, Accumulator.addRecord, ih, meterRecordOf]

theorem addTimers_eq (now : ℕ) :
    ∀ (ts : List (String × timer)) (acc : Accumulator),
      addTimers now ts acc =
        { acc with records := acc.records ++ ts.map (timerRecordOf now) } := by
  intro ts
  induction ts with
  | nil => intro acc; simp [addTimers]
  | cons p rest ih =>
    intro acc
    rcases p with ⟨name, t⟩
    simp [addTimers, Accumulator.addRecord, ih, timerRecordOf]

theorem runLoops_eq (m : metrics) (now : ℕ) (acc : Accumulator) :
    runLoops m now acc = { acc with records := acc.records ++ specRecords m now } := by
  simp [runLoops, addGauges_eq, addCounters_eq, addHistograms_eq, addMeters_eq,
    addTimers_eq, specRecords]

theorem normalizeDoc_eq (m : metrics) (now : ℕ) :
    normalizeDoc m now = specRecords m now := by
  simp [normalizeDoc, runLoops_eq]

/-! ### Per-URL and whole-pass characterization -/

def urlRecords (env : HttpEnv) (url : String) : List OutputRecord :=
  (gatherURL env url {}).1.records

def urlErr (env : HttpEnv) (url : String) : Option String :=
  (gatherURL env url {}).2

theorem gatherURL_acc (env : HttpEnv) (url : String) (acc : Accumulator) :
    gatherURL env url acc =
      ({ acc with records := acc.records ++ urlRecords env url }, urlErr env url) := by
  cases hg : env.get url with
  | error e => simp [gatherURL, urlRecords, urlErr, hg]
  | ok body =>
    cases hd : DecodeJSONMetrics env body with
    | error e => simp [gatherURL, urlRecords, urlErr, hg, hd]
    | ok m => simp [gatherURL, urlRecords, urlErr, hg, hd, runLoops_eq]

theorem gatherAllURLs_eq (env : HttpEnv) :
    ∀ (urls : List String) (acc : Accumulator),
      gatherAllURLs env urls acc =
        { records := acc.records ++ urls.flatMap (urlRecords env),
          errors := acc.errors ++ urls.filterMap (fun url =>
            (urlErr env url).map (fun e => "[url=" ++ url ++ "]: " ++ e)) } := by
  intro urls
  induction urls with
  | nil => intro acc; simp [gatherAllURLs]
  | cons url rest ih =>
    intro acc
    rw [gatherAllURLs]
    rw [gatherURL_acc]
    cases hu : urlErr env url with
    | none =>
      simp only [hu]
      rw [ih]
      simp [hu]
    | some e =>
      simp only [hu]
      rw [Accumulator.addError, ih]
      simp [hu]

/-! ### Helper lemmas for the claim theorems -/

theorem gaugeRecords_length (now : ℕ) (gs : List (String × gauge)) :
    (gs.filterMap (gaugeRecordOf now)).length =
      gs.countP (fun p => decide (p.2.Value.typ ≠ gaugeValueType.StringType)) := by
  induction gs with
  | nil => simp
  | cons p rest ih =>
    rcases p with ⟨name, g⟩
    cases htyp : g.Value.typ <;>
      simp [gaugeRecordOf, htyp, List.countP_cons, ih]

theorem gaugeRecordOf_time (now : ℕ) (p : String × gauge) (r : OutputRecord)
    (h : gaugeRecordOf now p = some r) : r.time = now := by
  unfold gaugeRecordOf at h
  split at h
  · cases h; rfl
  · split at h
    · cases h; rfl
    · cases h

theorem specRecords_time (m : metrics) (now : ℕ) (r : OutputRecord)
    (h : r ∈ specRecords m now) : r.time = now := by
  simp only [specRecords, List.mem_append] at h
  rcases h with ((((h | h) | h) | h) | h)
  · rcases List.mem_filterMap.mp h with ⟨p, _, hsome⟩
    exact gaugeRecordOf_time now p r hsome
  · rcases List.mem_map.mp h with ⟨p, _, rfl⟩; rfl
  · rcases List.mem_map.mp h with ⟨p, _, rfl⟩; rfl
  · rcases List.mem_map.mp h with ⟨p, _, rfl⟩; rfl
  · rcases List.mem_map.mp h with ⟨p, _, rfl⟩; rfl

theorem specRecords_gauge_mem (m : metrics) (now : ℕ) (p : String × gauge)
    (hp : p ∈ m.Gauges) (r : OutputRecord) (hr : gaugeRecordOf now p = some r) :
    r ∈ specRecords m now := by
  simp only [specRecords, List.mem_append]
  exact Or.inl (Or.inl (Or.inl (Or.inl (List.mem_filterMap.mpr ⟨p, hp, hr⟩))))

theorem specRecords_counter_mem (m : metrics) (now : ℕ) (p : String × counter)
    (hp : p ∈ m.Counters) : counterRecordOf now p ∈ specRecords m now := by
  simp only [specRecords, List.mem_append]
  exact Or.inl (Or.inl (Or.inl (Or.inr (List.mem_map_of_mem _ hp))))

theorem specRecords_histogram_mem (m : metrics) (now : ℕ) (p : String × histogram)
    (hp : p ∈ m.Histograms) : histogramRecordOf now p ∈ specRecords m now := by
  simp only [specRecords, List.mem_append]
  exact Or.inl (Or.inl (Or.inr (List.mem_map_of_mem _ hp)))

theorem specRecords_meter_mem (m : metrics) (now : ℕ) (p : String × meter)
    (hp : p ∈ m.Meters) : meterRecordOf now p ∈ specRecords m now := by
  simp only [specRecords, List.mem_append]
  exact Or.inl (Or.inr (List.mem_map_of_mem _ hp))

theorem specRecords_timer_mem (m : metrics) (now : ℕ) (p : String × timer)
    (hp : p ∈ m.Timers) : timerRecordOf now p ∈ specRecords m now := by
  simp only [specRecords, List.mem_append]
  exact Or.inr (List.mem_map_of_mem _ hp)

/-! ### Claim theorems: normalizer -/

/-- Claim C1: for every decoded `MetricsDocument`, the normalizer emits
exactly one record per counter, histogram, meter, and timer entry and per
gauge whose variant is Integer or Float (String gauges emit zero records),
and each record's field mapping is exactly the fixed per-kind table. -/
theorem dropwizard_C1 (m : metrics) (now : ℕ) :
    ((normalizeDoc m now).length =
        m.Gauges.countP (fun p => decide (p.2.Value.typ ≠ gaugeValueType.StringType))
          + m.Counters.length + m.Histograms.length + m.Meters.length + m.Timers.length)
    ∧ (∀ p ∈ m.Gauges, p.2.Value.typ = gaugeValueType.IntType →
        ({ method := .addGauge, name := p.1,
           fields := [("value", .int p.2.Value.IntValue)], tags := none,
           time := now } : OutputRecord) ∈ normalizeDoc m now)
    ∧ (∀ p ∈ m.Gauges, p.2.Value.typ = gaugeValueType.FloatType →
        ({ method := .addGauge, name := p.1,
           fields := [("value", .float p.2.Value.FloatValue)], tags := none,
           time := now } : OutputRecord) ∈ normalizeDoc m now)
    ∧ (∀ p ∈ m.Gauges, p.2.Value.typ = gaugeValueType.StringType →
        gaugeRecordOf now p = none)
    ∧ (∀ p ∈ m.Counters,
        ({ method := .addCounter, name := p.1,
           fields := [("count", .int p.2.Count)], tags := none,
           time := now } : OutputRecord) ∈ normalizeDoc m now)
    ∧ (∀ p ∈ m.Histograms,
        ({ method := .addHistogram, name := p.1,
           fields := [("count", .int p.2.Count), ("max", .int p.2.Max),
             ("mean", .float p.2.Mean), ("min", .int p.2.Min),
             ("p50", .float p.2.P50), ("p75", .float p.2.P75),
             ("p95", .float p.2.P95), ("p98", .float p.2.P98),
             ("p99", .float p.2.P99), ("p999", .float p.2.P999),
             ("stddev", .float p.2.Stddev)], tags := none,
           time := now } : OutputRecord) ∈ normalizeDoc m now)
    ∧ (∀ p ∈ m.Meters,
        ({ method := .addHistogram, name := p.1,
           fields := [("count", .int p.2.Count), ("m15_rate", .float p.2.M15Rate),
             ("m1_rate", .float p.2.M1Rate), ("m5_rate", .float p.2.M5Rate),
             ("mean_rate", .float p.2.MeanRate)], tags := none,
           time := now } : OutputRecord) ∈ normalizeDoc m now)
    ∧ (∀ p ∈ m.Timers,
        ({ method := .addFields, name := p.1,
           fields := [("count", .int p.2.Count), ("max", .float p.2.Max),
             ("mean", .float p.2.Mean), ("min", .float p.2.Min),
             ("p50", .float p.2.P50), ("p75", .float p.2.P75),
             ("p95", .float p.2.P95), ("p98", .float p.2.P98),
             ("p99", .float p.2.P99), ("p999", .float p.2.P999),
             ("stddev", .float p.2.Stddev), ("m15_rate", .float p.2.M15Rate),
             ("m1_rate", .float p.2.M1Rate), ("m5_rate", .float p.2.M5Rate),
             ("mean_rate", .float p.2.MeanRate)], tags := none,
           time := now } : OutputRecord) ∈ normalizeDoc m now) := by
  refine ⟨?_, ?_, ?_, ?_, ?_, ?_, ?_, ?_⟩
  · rw [normalizeDoc_eq]
    simp [specRecords, gaugeRecords_length]
    omega
  · intro p hp htyp
    rw [normalizeDoc_eq]
    exact specRecords_gauge_mem m now p hp _ (by simp [gaugeRecordOf, htyp])
  · intro p hp htyp
    rw [normalizeDoc_eq]
    exact specRecords_gauge_mem m now p hp _ (by simp [gaugeRecordOf, htyp])
  · intro p hp htyp
    simp [gaugeRecordOf, htyp]
  · intro p hp
    rw [normalizeDoc_eq]
    exact specRecords_counter_mem m now p hp
  · intro p hp
    rw [normalizeDoc_eq]
    exact specRecords_histogram_mem m now p hp
  · intro p hp
    rw [normalizeDoc_eq]
    exact specRecords_meter_mem m now p hp
  · intro p hp
    rw [normalizeDoc_eq]
    exact specRecords_timer_mem m now p hp

/-- Claim C1 witness: a concrete document with one gauge of each variant,
one counter, one histogram, one meter, and one timer yields five records. -/
theorem dropwizard_C1_witness :
    (normalizeDoc
      { Gauges := [("g1", ⟨{ IntValue := 7, typ := .IntType }⟩),
                   ("g2", ⟨{ FloatValue := .finite false 3 0, typ := .FloatType }⟩),
                   ("g3", ⟨{ StringValue := "x", typ := .StringType }⟩)],
        Counters := [("c", ⟨42⟩)],
        Histograms := [("h", ⟨1, 2, .finite false 0 0, 0, .finite false 0 0,
          .finite false 0 0, .finite false 0 0, .finite false 0 0,
          .finite false 0 0, .finite false 0 0, .finite false 0 0⟩)],
        Meters := [("m", ⟨5, .finite false 0 0, .finite false 0 0,
          .finite false 0 0, .finite false 0 0, "events"⟩)],
        Timers := [("t", ⟨9, .finite false 0 0, .finite false 0 0,
          .finite false 0 0, .finite false 0 0, .finite false 0 0,
          .finite false 0 0, .finite false 0 0, .finite false 0 0,
          .finite false 0 0, .finite false 0 0, .finite false 0 0,
          .finite false 0 0, .finite false 0 0, .finite false 0 0,
          "ms", "hz"⟩)] } 11).length = 6 ∧
    ({ method := .addCounter, name := "c", fields := [("count", .int 42)],
       tags := none, time := 11 } : OutputRecord) ∈ normalizeDoc
      { Gauges := [("g1", ⟨{ IntValue := 7, typ := .IntType }⟩),
                   ("g2", ⟨{ FloatValue := .finite false 3 0, typ := .FloatType }⟩),
                   ("g3", ⟨{ StringValue := "x", typ := .StringType }⟩)],
        Counters := [("c", ⟨42⟩)],
        Histograms := [("h", ⟨1, 2, .finite false 0 0, 0, .finite false 0 0,
          .finite false 0 0, .finite false 0 0, .finite false 0 0,
          .finite false 0 0, .finite false 0 0, .finite false 0 0⟩)],
        Meters := [("m", ⟨5, .finite false 0 0, .finite false 0 0,
          .finite false 0 0, .finite false 0 0, "events"⟩)],
        Timers := [("t", ⟨9, .finite false 0 0, .finite false 0 0,
          .finite false 0 0, .finite false 0 0, .finite false 0 0,
          .finite false 0 0, .finite false 0 0, .finite false 0 0,
          .finite false 0 0, .finite false 0 0, .finite false 0 0,
          .finite false 0 0, .finite false 0 0, .finite false 0 0,
          "ms", "hz"⟩)] } 11 := by
  constructor
  · have h := (dropwizard_C1
      { Gauges := [("g1", ⟨{ IntValue := 7, typ := .IntType }⟩),
                   ("g2", ⟨{ FloatValue := .finite false 3 0, typ := .FloatType }⟩),
                   ("g3", ⟨{ StringValue := "x", typ := .StringType }⟩)],
        Counters := [("c", ⟨42⟩)],
        Histograms := [("h", ⟨1, 2, .finite false 0 0, 0, .finite false 0 0,
          .finite false 0 0, .finite false 0 0, .finite false 0 0,
          .finite false 0 0, .finite false 0 0, .finite false 0 0⟩)],
        Meters := [("m", ⟨5, .finite false 0 0, .finite false 0 0,
          .finite false 0 0, .finite false 0 0, "events"⟩)],
        Timers := [("t", ⟨9, .finite false 0 0, .finite false 0 0,
          .finite false 0 0, .finite false 0 0, .finite false 0 0,
          .finite false 0 0, .finite false 0 0, .finite false 0 0,
          .finite false 0 0, .finite false 0 0, .finite false 0 0,
          .finite false 0 0, .finite false 0 0, .finite false 0 0,
          "ms", "hz"⟩)] } 11).1
    rw [h]
    decide
  · exact (dropwizard_C1 _ 11).2.2.2.2.1 ("c", ⟨42⟩) (by decide)

/-! ### Concrete document and environment used by witnesses -/

def mEx : metrics := { Counters := [("requests.total", ⟨42⟩)] }

def envEx : HttpEnv :=
  { tlsConfig := .ok {},
    get := fun url => if url = "http://b/metrics" then .ok "bad" else .ok "good",
    jsonDecode := fun body =>
      if body = "good" then .ok mEx else .error "invalid character",
    clock := fun url => if url = "http://a/metrics" then 5 else 7 }

/-! ### Claim theorems: decoder totality, timestamps, default URL, channels -/

/-- Claim C6: the polymorphic scalar decoder never fails: for every raw
token it returns successfully with exactly one of the Integer, Float, or
String variants. -/
theorem dropwizard_C6 (b : String) :
    ∃ v : gaugeValue, gaugeValue.UnmarshalJSON b = .ok v ∧
      (v.typ = .IntType ∨ v.typ = .FloatType ∨ v.typ = .StringType) := by
  unfold gaugeValue.UnmarshalJSON
  cases parseInt64 b with
  | some i => exact ⟨_, rfl, Or.inl rfl⟩
  | none =>
    cases parseFloat64 b with
    | some f => exact ⟨_, rfl, Or.inr (Or.inl rfl)⟩
    | none => exact ⟨_, rfl, Or.inr (Or.inr rfl)⟩

/-- Claim C7: every record added by one `gatherURL` invocation carries the
single timestamp captured for that endpoint at the start of the fetch. -/
theorem dropwizard_C7 (env : HttpEnv) (url : String) (acc : Accumulator)
    (r : OutputRecord) (h1 : r ∈ (gatherURL env url acc).1.records)
    (h2 : r ∉ acc.records) : r.time = env.clock url := by
  rw [gatherURL_acc] at h1
  simp only [List.mem_append] at h1
  rcases h1 with h1 | h1
  · exact absurd h1 h2
  · unfold urlRecords gatherURL at h1
    cases hg : env.get url with
    | error e => simp [hg] at h1
    | ok body =>
      cases hd : DecodeJSONMetrics env body with
      | error e => simp [hg, hd] at h1
      | ok m =>
        simp [hg, hd, runLoops_eq] at h1
        exact specRecords_time _ _ _ h1

/-- Claim C7 witness: in a concrete environment where the clock reads 5 for
the endpoint, the emitted record's timestamp is 5. -/
theorem dropwizard_C7_witness :
    ∃ r : OutputRecord, r ∈ (gatherURL envEx "http://a/metrics" {}).1.records ∧
      r ∉ ({} : Accumulator).records ∧ r.time = envEx.clock "http://a/metrics" := by
  refine ⟨{ method := .addCounter, name := "requests.total",
            fields := [("count", .int 42)], tags := none, time := 5 }, ?m1, ?m2, ?_⟩
  case m1 => decide
  case m2 => decide
  exact dropwizard_C7 envEx "http://a/metrics" {} _ (by decide) (by decide)

/-- Claim C8: with an empty URL list, a pass behaves identically to a pass
with the single default URL, and the substitution is persisted. -/
theorem dropwizard_C8 (d : Dropwizard) (env : HttpEnv) (h : d.URLs = []) :
    Gather d env = Gather { d with URLs := [defaultURL] } env ∧
    (Gather d env).1.URLs = [defaultURL] := by
  constructor
  · simp [Gather, h]
  · rcases hc : d.client with _ | c
    · rcases ht : env.tlsConfig with e | cfg
      · simp [Gather, h, hc, ht]
      · simp [Gather, h, hc, ht]
    · simp [Gather, h, hc]

/-- Claim C8 witness: the default-constructed plugin value (empty URL list)
gathers identically to one configured with the default URL. -/
theorem dropwizard_C8_witness :
    Gather ({} : Dropwizard) envEx
        = Gather { ({} : Dropwizard) with URLs := [defaultURL] } envEx ∧
      (Gather ({} : Dropwizard) envEx).1.URLs = [defaultURL] :=
  dropwizard_C8 {} envEx rfl

/-- Claim C9: meter records go through the same sink method as histogram
records (`AddHistogram`), timers through the generic `AddFields`, gauges and
counters through their own `AddGauge` / `AddCounter`. -/
theorem dropwizard_C9 (m : metrics) (now : ℕ) :
    (∀ p ∈ m.Meters, ∃ r, r ∈ normalizeDoc m now ∧ r.name = p.1 ∧
        r.fields = meterFields p.2 ∧ r.method = .addHistogram)
  ∧ (∀ p ∈ m.Histograms, ∃ r, r ∈ normalizeDoc m now ∧ r.name = p.1 ∧
        r.fields = histogramFields p.2 ∧ r.method = .addHistogram)
  ∧ (∀ p ∈ m.Timers, ∃ r, r ∈ normalizeDoc m now ∧ r.name = p.1 ∧
        r.fields = timerFields p.2 ∧ r.method = .addFields)
  ∧ (∀ p ∈ m.Gauges, p.2.Value.typ ≠ gaugeValueType.StringType →
      ∃ r, r ∈ normalizeDoc m now ∧ r.name = p.1 ∧ r.method = .addGauge)
  ∧ (∀ p ∈ m.Counters, ∃ r, r ∈ normalizeDoc m now ∧ r.name = p.1 ∧
        r.method = .addCounter) := by
  refine ⟨?_, ?_, ?_, ?_, ?_⟩
  · intro p hp
    exact ⟨meterRecordOf now p,
      by rw [normalizeDoc_eq]; exact specRecords_meter_mem m now p hp, rfl, rfl, rfl⟩
  · intro p hp
    exact ⟨histogramRecordOf now p,
      by rw [normalizeDoc_eq]; exact specRecords_histogram_mem m now p hp, rfl, rfl, rfl⟩
  · intro p hp
    exact ⟨timerRecordOf now p,
      by rw [normalizeDoc_eq]; exact specRecords_timer_mem m now p hp, rfl, rfl, rfl⟩
  · intro p hp htyp
    cases h : p.2.Value.typ with
    | IntType =>
      refine ⟨{ method := .addGauge, name := p.1,
                fields := [("value", .int p.2.Value.IntValue)], tags := none,
                time := now }, ?_, rfl, rfl⟩
      rw [normalizeDoc_eq]
      exact specRecords_gauge_mem m now p hp _ (by simp [gaugeRecordOf, h])
    | FloatType =>
      refine ⟨{ method := .addGauge, name := p.1,
                fields := [("value", .float p.2.Value.FloatValue)], tags := none,
                time := now }, ?_, rfl, rfl⟩
      rw [normalizeDoc_eq]
      exact specRecords_gauge_mem m now p hp _ (by simp [gaugeRecordOf, h])
    | StringType => exact absurd h htyp
  · intro p hp
    exact ⟨counterRecordOf now p,
      by rw [normalizeDoc_eq]; exact specRecords_counter_mem m now p hp, rfl, rfl⟩

/-- Claim C9 witness: a concrete meter entry is emitted via `AddHistogram`. -/
theorem dropwizard_C9_witness :
    ∃ r, r ∈ normalizeDoc
        { Meters := [("m", ⟨5, .finite false 0 0, .finite false 0 0,
          .finite false 0 0, .finite false 0 0, "u"⟩)] } 3 ∧
      r.name = "m" ∧
      r.fields = meterFields ⟨5, .finite false 0 0, .finite false 0 0,
        .finite false 0 0, .finite false 0 0, "u"⟩ ∧
      r.method = .addHistogram :=
  (dropwizard_C9 _ 3).1 ("m", ⟨5, .finite false 0 0, .finite false 0 0,
    .finite false 0 0, .finite false 0 0, "u"⟩) (by decide)

/-! ### Orchestration lemmas for the pass-level claims -/

/-- The URL list actually gathered: the default is substituted when the
configured list is empty. -/
def effURLs (d : Dropwizard) : List String :=
  if d.URLs = [] then [defaultURL] else d.URLs

theorem Gather_tls_error (d : Dropwizard) (env : HttpEnv) (e : String)
    (hc : d.client = none) (ht : env.tlsConfig = .error e) :
    (Gather d env).2.1 = .error e ∧ (Gather d env).2.2 = ({} : Accumulator) := by
  by_cases hu : d.URLs = [] <;> constructor <;> simp [Gather, hu, hc, ht]

theorem Gather_tls_ok (d : Dropwizard) (env : HttpEnv) (cfg : TLSConfig)
    (hc : d.client = none) (ht : env.tlsConfig = .ok cfg) :
    (Gather d env).2.1 = .ok () ∧
    (Gather d env).2.2 = gatherAllURLs env (effURLs d) {} := by
  by_cases hu : d.URLs = [] <;> constructor <;> simp [Gather, effURLs, hu, hc, ht]

theorem Gather_client_some (d : Dropwizard) (env : HttpEnv) (c : HTTPClient)
    (hc : d.client = some c) :
    (Gather d env).2.1 = .ok () ∧
    (Gather d env).2.2 = gatherAllURLs env (effURLs d) {} := by
  by_cases hu : d.URLs = [] <;> constructor <;> simp [Gather, effURLs, hu, hc]

theorem filterMap_eq_single (f : String → Option String) (a b : String)
    (hfa : f a = some b) :
    ∀ l : List String, l.count a = 1 → (∀ x ∈ l, x ≠ a → f x = none) →
      l.filterMap f = [b] := by
  intro l
  induction l with
  | nil => intro h; simp at h
  | cons x rest ih =>
    intro hcount hnone
    by_cases hx : x = a
    · subst hx
      have hrest0 : rest.count x = 0 := by
        rw [List.count_cons_self] at hcount
        omega
      have hfnone : ∀ y ∈ rest, f y = none := by
        intro y hy
        by_cases hya : y = x
        · subst hya
          exact absurd hy (List.count_eq_zero.mp hrest0)
        · exact hnone y (List.mem_cons_of_mem _ hy) hya
      rw [List.filterMap_cons, hfa]
      rw [List.filterMap_eq_nil_iff.mpr hfnone]
    · have hcr : rest.count a = 1 := by
        rwa [List.count_cons_of_ne (Ne.symm hx)] at hcount
      have hfx : f x = none := hnone x (List.mem_cons_self _ _) hx
      rw [List.filterMap_cons, hfx]
      exact ih hcr (fun y hy hne => hnone y (List.mem_cons_of_mem _ hy) hne)

theorem flatMap_skip (f : String → List OutputRecord) (a : String) (hfa : f a = []) :
    ∀ l : List String, l.flatMap f = (l.filter (fun x => x != a)).flatMap f := by
  intro l
  induction l with
  | nil => simp
  | cons x rest ih =>
    by_cases hx : x = a
    · subst hx
      simp [List.filter_cons, hfa, ih]
    · simp [List.filter_cons, hx, ih]

/-! ### Claim theorems: pass-level error handling -/

/-- Claim C3: a pass fails as a whole exactly when the client must be built
and the TLS configuration is invalid; in that case no URL tasks run.  When
the pass succeeds, the reported errors are precisely the per-URL failures,
each annotated with its source URL. -/
theorem dropwizard_C3 (d : Dropwizard) (env : HttpEnv) :
    (∀ e, ((Gather d env).2.1 = .error e ↔ (d.client = none ∧ env.tlsConfig = .error e)))
  ∧ (∀ e, (Gather d env).2.1 = .error e → (Gather d env).2.2 = ({} : Accumulator))
  ∧ ((Gather d env).2.1 = .ok () →
      (Gather d env).2.2.errors = (effURLs d).filterMap (fun url =>
          (urlErr env url).map (fun er => "[url=" ++ url ++ "]: " ++ er))
        ∧ (Gather d env).2.2.records = (effURLs d).flatMap (urlRecords env)) := by
  rcases hc : d.client with _ | c
  · rcases ht : env.tlsConfig with e0 | cfg
    · obtain ⟨h1, h2⟩ := Gather_tls_error d env e0 hc ht
      refine ⟨?_, ?_, ?_⟩
      · intro e
        constructor
        · intro he
          rw [h1] at he
          injection he with hee
          subst hee
          exact ⟨rfl, rfl⟩
        · rintro ⟨_, hte⟩
          injection hte with hee
          subst hee
          exact h1
      · intro e he
        exact h2
      · intro hok
        rw [h1] at hok
        exact absurd hok (by simp)
    · obtain ⟨h1, h2⟩ := Gather_tls_ok d env cfg hc ht
      refine ⟨?_, ?_, ?_⟩
      · intro e
        constructor
        · intro he
          rw [h1] at he
          exact absurd he (by simp)
        · rintro ⟨_, hte⟩
          exact absurd hte (by simp)
      · intro e he
        rw [h1] at he
        exact absurd he (by simp)
      · intro _
        rw [h2, gatherAllURLs_eq]
        constructor <;> simp
  · obtain ⟨h1, h2⟩ := Gather_client_some d env c hc
    refine ⟨?_, ?_, ?_⟩
    · intro e
      constructor
      · intro he
        rw [h1] at he
        exact absurd he (by simp)
      · rintro ⟨hnone, _⟩
        exact absurd hnone (by simp)
    · intro e he
      rw [h1] at he
      exact absurd he (by simp)
    · intro _
      rw [h2, gatherAllURLs_eq]
      constructor <;> simp

def envBadTLS : HttpEnv := { envEx with tlsConfig := .error "bad cert" }

/-- Claim C3 witness: with invalid TLS material and no cached client, the
pass fails with exactly the construction error and an empty accumulator. -/
theorem dropwizard_C3_witness :
    (Gather ({} : Dropwizard) envBadTLS).2.1 = .error "bad cert" ∧
    (Gather ({} : Dropwizard) envBadTLS).2.2 = ({} : Accumulator) := by
  have h := dropwizard_C3 ({} : Dropwizard) envBadTLS
  have he : (Gather ({} : Dropwizard) envBadTLS).2.1 = .error "bad cert" :=
    (h.1 "bad cert").mpr ⟨rfl, rfl⟩
  exact ⟨he, h.2.1 "bad cert" he⟩

/-- Claim C4: when decoding one URL's body fails, that URL contributes zero
records (the parse is atomic), exactly one error annotated with that URL is
reported, and every other URL still contributes its full record set. -/
theorem dropwizard_C4 (d : Dropwizard) (env : HttpEnv) (c : HTTPClient)
    (u0 body e : String)
    (hc : d.client = some c)
    (hmem : u0 ∈ d.URLs) (hcount : d.URLs.count u0 = 1)
    (hget : env.get u0 = .ok body) (hdec : env.jsonDecode body = .error e)
    (hok : ∀ u ∈ d.URLs, u ≠ u0 → urlErr env u = none) :
    (Gather d env).2.1 = .ok ()
  ∧ (Gather d env).2.2.errors = ["[url=" ++ u0 ++ "]: " ++ e]
  ∧ urlRecords env u0 = []
  ∧ (Gather d env).2.2.records =
      (d.URLs.filter (fun u => u != u0)).flatMap (urlRecords env) := by
  have hne : d.URLs ≠ [] := by
    intro hnil
    rw [hnil] at hmem
    simp at hmem
  have heff : effURLs d = d.URLs := by unfold effURLs; rw [if_neg hne]
  obtain ⟨h1, h2⟩ := Gather_client_some d env c hc
  have hu0err : urlErr env u0 = some e := by
    simp [urlErr, gatherURL, DecodeJSONMetrics, hget, hdec]
  have hu0rec : urlRecords env u0 = [] := by
    simp [urlRecords, gatherURL, DecodeJSONMetrics, hget, hdec]
  refine ⟨h1, ?_, hu0rec, ?_⟩
  · rw [h2, gatherAllURLs_eq, heff]
    simp only [Accumulator.errors]
    rw [filterMap_eq_single _ u0 ("[url=" ++ u0 ++ "]: " ++ e)
      (by rw [hu0err]; rfl) d.URLs hcount
      (fun x hx hne2 => by rw [hok x hx hne2]; rfl)]
    rfl
  · rw [h2, gatherAllURLs_eq, heff]
    simp only [Accumulator.records]
    rw [← flatMap_skip (urlRecords env) u0 hu0rec d.URLs]
    rfl

def envC4 : HttpEnv :=
  { tlsConfig := .ok {},
    get := fun url => if url = "http://b/metrics" then .ok "bad" else .ok "good",
    jsonDecode := fun body =>
      if body = "good" then .ok mEx else .error "invalid character",
    clock := fun _ => 3 }

/-- Claim C4 witness: two URLs, the second returns malformed JSON; the pass
reports exactly one annotated error and keeps the first URL's records. -/
theorem dropwizard_C4_witness :
    (Gather { URLs := ["http://a/metrics", "http://b/metrics"],
              client := some {} } envC4).2.1 = .ok ()
  ∧ (Gather { URLs := ["http://a/metrics", "http://b/metrics"],
              client := some {} } envC4).2.2.errors =
      ["[url=" ++ "http://b/metrics" ++ "]: " ++ "invalid character"]
  ∧ urlRecords envC4 "http://b/metrics" = []
  ∧ (Gather { URLs := ["http://a/metrics", "http://b/metrics"],
              client := some {} } envC4).2.2.records =
      ((["http://a/metrics", "http://b/metrics"] : List String).filter
        (fun u => u != "http://b/metrics")).flatMap (urlRecords envC4) :=
  dropwizard_C4 _ envC4 {} "http://b/metrics" "bad" "invalid character"
    rfl (by decide) (by decide) rfl rfl
    (by
      intro u hu hne
      simp only [List.mem_cons, List.not_mem_nil, or_false] at hu
      rcases hu with rfl | rfl
      · decide
      · exact absurd rfl hne)

/-! ### Spec-side notions for the scalar-decoder claims

These definitions follow the claims' own words ("lexically valid as a
base-10 integer literal", "the literal's numeric value", "strip one leading
and one trailing double-quote character"), to be compared against the code's
behaviour. -/

def isIntLexical (s : String) : Bool :=
  match s.data with
  | [] => false
  | c :: cs =>
    let ds := if c = '+' || c = '-' then cs else c :: cs
    !ds.isEmpty && ds.all isDig

def intLexValue (s : String) : ℤ :=
  match s.data with
  | [] => 0
  | c :: cs =>
    let ds := if c = '+' || c = '-' then cs else c :: cs
    if c = '-' then -(natOfDigits ds : ℤ) else (natOfDigits ds : ℤ)

def lexNeg (s : String) : Bool :=
  match s.data with
  | c :: _ => c = '-'
  | [] => false

/-- The signed 64-bit integer range, `[-2^63, 2^63 - 1]`. -/
def int64Range (n : ℤ) : Prop :=
  -9223372036854775808 ≤ n ∧ n ≤ 9223372036854775807

instance : DecidablePred int64Range := fun _ => instDecidableAnd

/-- What claim C5 asserts the fallback produces: one leading and one
trailing double quote removed (if present). -/
def stripOneQuote (s : String) : String :=
  let l1 :=
    match s.data with
    | c :: t => if c = '"' then t else c :: t
    | [] => []
  let l2 :=
    match l1.reverse with
    | c :: t => if c = '"' then t.reverse else l1
    | [] => l1
  String.mk l2

instance {ε α : Type} [DecidableEq ε] [DecidableEq α] :
    DecidableEq (Except ε α) := fun a b =>
  match a, b with
  | .ok x, .ok y =>
    if h : x = y then .isTrue (by rw [h])
    else .isFalse (by intro hh; injection hh; contradiction)
  | .error x, .error y =>
    if h : x = y then .isTrue (by rw [h])
    else .isFalse (by intro hh; injection hh; contradiction)
  | .ok _, .error _ => .isFalse (fun hh => Except.noConfusion hh)
  | .error _, .ok _ => .isFalse (fun hh => Except.noConfusion hh)

/-! ### Characterization of `parseInt64` on integer-lexical tokens -/

theorem parseInt64_lex (s : String) (h1 : isIntLexical s = true)
    (h2 : int64Range (intLexValue s)) :
    parseInt64 s = some (intLexValue s) := by
  rcases hd : s.data with _ | ⟨c, cs⟩
  · unfold isIntLexical at h1
    rw [hd] at h1
    simp at h1
  · unfold isIntLexical at h1
    unfold intLexValue at h2 ⊢
    unfold parseInt64
    rw [hd] at h1 h2 ⊢
    by_cases hsig : (c = '+' || c = '-') = true
    · simp only [hsig, if_true] at h1 h2 ⊢
      simp only [Bool.and_eq_true, Bool.not_eq_true'] at h1
      obtain ⟨hne, hall⟩ := h1
      simp only [hne, Bool.false_eq_true, if_false, hall, if_true]
      by_cases hneg : c = '-'
      · simp only [hneg, if_true] at h2 ⊢
        have hle : natOfDigits cs ≤ 9223372036854775808 := by
          have := h2.1
          omega
        simp [hle]
      · simp only [hneg, if_false] at h2 ⊢
        have hle : natOfDigits cs ≤ 9223372036854775807 := by
          have := h2.2
          omega
        simp [hle]
    · simp only [Bool.not_eq_true] at hsig
      have hneg : ¬ c = '-' := by
        intro hcm
        rw [hcm] at hsig
        simp at hsig
      simp only [hsig, Bool.false_eq_true, if_false] at h1 h2 ⊢
      simp only [Bool.and_eq_true, Bool.not_eq_true'] at h1
      obtain ⟨hne, hall⟩ := h1
      simp only [hne, Bool.false_eq_true, if_false, hall, if_true, hneg]
      simp only [hneg, if_false] at h2
      have hle : natOfDigits (c :: cs) ≤ 9223372036854775807 := by
        have := h2.2
        omega
      simp [hle]

theorem parseInt64_lex_none (s : String) (h1 : isIntLexical s = true)
    (h2 : ¬ int64Range (intLexValue s)) :
    parseInt64 s = none := by
  rcases hd : s.data with _ | ⟨c, cs⟩
  · unfold isIntLexical at h1
    rw [hd] at h1
    simp at h1
  · unfold isIntLexical at h1
    unfold intLexValue int64Range at h2
    unfold parseInt64
    rw [hd] at h1 h2 ⊢
    by_cases hsig : (c = '+' || c = '-') = true
    · simp only [hsig, if_true] at h1 h2 ⊢
      simp only [Bool.and_eq_true, Bool.not_eq_true'] at h1
      obtain ⟨hne, hall⟩ := h1
      simp only [hne, Bool.false_eq_true, if_false, hall, if_true]
      by_cases hneg : c = '-'
      · simp only [hneg, if_true] at h2 ⊢
        have hgt : ¬ natOfDigits cs ≤ 9223372036854775808 := by
          intro hle
          apply h2
          constructor <;> omega
        simp [hgt]
      · simp only [hneg, if_false] at h2 ⊢
        have hgt : ¬ natOfDigits cs ≤ 9223372036854775807 := by
          intro hle
          apply h2
          constructor <;> omega
        simp [hgt]
    · simp only [Bool.not_eq_true] at hsig
      have hneg : ¬ c = '-' := by
        intro hcm
        rw [hcm] at hsig
        simp at hsig
      simp only [hsig, Bool.false_eq_true, if_false] at h1 h2 ⊢
      simp only [Bool.and_eq_true, Bool.not_eq_true'] at h1
      obtain ⟨hne, hall⟩ := h1
      simp only [hne, Bool.false_eq_true, if_false, hall, if_true, hneg]
      simp only [hneg, if_false] at h2
      have hgt : ¬ natOfDigits (c :: cs) ≤ 9223372036854775807 := by
        intro hle
        apply h2
        constructor <;> omega
      simp [hgt]

/-! ### Claim theorems: integer parse priority (C2) and string fallback (C5) -/

/-- Claim C2 counterexample: `9223372036854775808` (that is `2^63`) is
lexically a base-10 integer literal, yet the decoded variant is Float, not
Integer — the 64-bit integer parse fails on out-of-range literals, so the
claim's universal statement over all lexically-integer tokens is false. -/
theorem dropwizard_C2_counterexample :
    isIntLexical "9223372036854775808" = true
  ∧ (gaugeValue.UnmarshalJSON "9223372036854775808").toOption.map gaugeValue.typ
      = some gaugeValueType.FloatType := by
  constructor
  · decide
  · decide

/-- Claim C2 (amended): for every token lexically valid as a base-10 integer
whose value fits in the signed 64-bit range, the decoded variant is Integer
and its value equals the literal's numeric value exactly. -/
theorem dropwizard_C2 (s : String) (h1 : isIntLexical s = true)
    (h2 : int64Range (intLexValue s)) :
    gaugeValue.UnmarshalJSON s =
      .ok { IntValue := intLexValue s, typ := .IntType } := by
  unfold gaugeValue.UnmarshalJSON
  rw [parseInt64_lex s h1 h2]

/-- Claim C2 witness: the token `42` decodes to the Integer variant with
value 42. -/
theorem dropwizard_C2_witness :
    isIntLexical "42" = true ∧ int64Range (intLexValue "42") ∧
      gaugeValue.UnmarshalJSON "42" = .ok { IntValue := 42, typ := .IntType } := by
  refine ⟨by decide, by decide, ?_⟩
  have h := dropwizard_C2 "42" (by decide) (by decide)
  have hv : intLexValue "42" = 42 := by decide
  rw [hv] at h
  exact h

/-- Claim C5 counterexample: on the token consisting of four double-quote
characters (not an integer, not a float), the code's `strings.Trim` removes
every leading and trailing quote, producing the empty string, whereas the
claim's "one leading and one trailing quote" stripping would leave two
quotes. -/
theorem dropwizard_C5_counterexample :
    parseInt64 "\"\"\"\"" = none
  ∧ parseFloat64 "\"\"\"\"" = none
  ∧ gaugeValue.UnmarshalJSON "\"\"\"\"" =
      .ok { StringValue := "", typ := .StringType }
  ∧ stripOneQuote "\"\"\"\"" = "\"\""
  ∧ ("" : String) ≠ "\"\"" := by
  refine ⟨by decide, by decide, by decide, by decide, by decide⟩

/-- Claim C5 (amended): for every token that parses neither as a 64-bit
integer nor as a 64-bit float, the decoded variant is String and its value
is the token text with ALL leading and trailing double-quote characters
removed (Go's `strings.Trim`), which for well-formed quoted tokens is the
unquoted text. -/
theorem dropwizard_C5 (s : String) (h1 : parseInt64 s = none)
    (h2 : parseFloat64 s = none) :
    gaugeValue.UnmarshalJSON s =
      .ok { StringValue := stringsTrimQuote s, typ := .StringType } := by
  unfold gaugeValue.UnmarshalJSON
  rw [h1, h2]

/-- Claim C5 witness: the quoted token `"ok"` decodes to the String variant
holding `ok`. -/
theorem dropwizard_C5_witness :
    gaugeValue.UnmarshalJSON "\"ok\"" =
      .ok { StringValue := stringsTrimQuote "\"ok\"", typ := .StringType } ∧
    stringsTrimQuote "\"ok\"" = "ok" :=
  ⟨dropwizard_C5 "\"ok\"" (by decide) (by decide), by decide⟩

/-! ### `float64` representability and rounding correctness on integers -/

/-- Spec-side: `q` is the exact value of some finite `float64` (mantissa
below `2^53`, exponent in `[-1074, 971]`). -/
def float64Rep (q : ℚ) : Prop :=
  ∃ sm e : ℤ, |sm| < 2 ^ 53 ∧ -1074 ≤ e ∧ e ≤ 971 ∧ q = (sm : ℚ) * (2 : ℚ) ^ e

theorem bitLen_one : bitLen 1 = 1 := by decide

/-- On integers `n ≥ 2^63`, `roundFloat64 n 1` rounds at precision
`2^(bitLen n - 53)`. -/
theorem roundFloat64_big_eval (n : ℕ) (hn : 2 ^ 63 ≤ n) :
    roundFloat64 n 1 =
      (if 2 ^ 1024 ≤ rhoNat n (2 ^ (bitLen n - 53)) * 2 ^ (bitLen n - 53) then none
       else if rhoNat n (2 ^ (bitLen n - 53)) = 2 ^ 53 then
         some (2 ^ 52, (bitLen n : ℤ) - 52)
       else if rhoNat n (2 ^ (bitLen n - 53)) = 0 then some (0, 0)
       else some (rhoNat n (2 ^ (bitLen n - 53)), (bitLen n : ℤ) - 53)) := by
  have hn0 : n ≠ 0 := by
    have hpos : (0 : ℕ) < 2 ^ 63 := by positivity
    omega
  obtain ⟨hL1, hL2⟩ := bitLen_spec n hn0
  have hL64 : 64 ≤ bitLen n := by
    by_contra hcon
    push_neg at hcon
    have h2 : (2 : ℕ) ^ bitLen n ≤ 2 ^ 63 :=
      Nat.pow_le_pow_right (by norm_num) (by omega)
    omega
  have he0 : (0 : ℤ) ≤ (bitLen n : ℤ) - (bitLen 1 : ℤ) := by
    rw [bitLen_one]
    push_cast
    omega
  have htoNat : ((bitLen n : ℤ) - (bitLen 1 : ℤ)).toNat = bitLen n - 1 := by
    rw [bitLen_one]
    omega
  have hcond : 1 * 2 ^ ((bitLen n : ℤ) - (bitLen 1 : ℤ)).toNat ≤ n := by
    rw [htoNat, one_mul]
    exact hL1
  have hq : qGe2Pow n 1 ((bitLen n : ℤ) - (bitLen 1 : ℤ)) = true := by
    unfold qGe2Pow
    rw [if_pos he0]
    exact decide_eq_true hcond
  have hflog : floorLog2Q n 1 = (bitLen n : ℤ) - 1 := by
    unfold floorLog2Q
    rw [if_pos hq, bitLen_one]
    push_cast
    ring
  have hmax : max ((bitLen n : ℤ) - 1 - 52) (-1074) = (bitLen n : ℤ) - 53 := by
    have h1 : (bitLen n : ℤ) - 1 - 52 = (bitLen n : ℤ) - 53 := by ring
    rw [h1, max_eq_left (by omega)]
  have hp0 : (0 : ℤ) ≤ (bitLen n : ℤ) - 53 := by omega
  have hptoNat : ((bitLen n : ℤ) - 53).toNat = bitLen n - 53 := by omega
  have hexp : (bitLen n : ℤ) - 53 + 1 = (bitLen n : ℤ) - 52 := by ring
  unfold roundFloat64
  rw [if_neg hn0, hflog]
  simp only [hmax, hp0, if_true, hptoNat, one_mul, true_and, hexp]

/-- The value rounded by `roundFloat64` on an integer `n ≥ 2^63` is at least
as close to `n` as any representable `float64` value. -/
theorem roundNearest_int (n : ℕ) (hlo : 2 ^ 63 ≤ n) (r : ℚ) (hr : float64Rep r) :
    |(n : ℚ) - ((rhoNat n (2 ^ (bitLen n - 53)) * 2 ^ (bitLen n - 53) : ℕ) : ℚ)|
      ≤ |(n : ℚ) - r| := by
  have hn0 : n ≠ 0 := by
    have hpos : (0 : ℕ) < 2 ^ 63 := by positivity
    omega
  obtain ⟨hL1, hL2⟩ := bitLen_spec n hn0
  have hL64 : 64 ≤ bitLen n := by
    by_contra hcon
    push_neg at hcon
    have h2 : (2 : ℕ) ^ bitLen n ≤ 2 ^ 63 :=
      Nat.pow_le_pow_right (by norm_num) (by omega)
    omega
  obtain ⟨sm, er, hsm, her1, her2, hrq⟩ := hr
  set P : ℕ := bitLen n - 53 with hP
  set M : ℕ := rhoNat n (2 ^ P) with hM
  have hD : 0 < 2 ^ P := by positivity
  have hdistZ : 2 * |(M : ℤ) * 2 ^ P - n| ≤ 2 ^ P := by
    have h0 := rhoNat_dist n (2 ^ P) hD
    rw [hM]
    exact_mod_cast h0
  have h53 : (2 : ℤ) ^ 53 = 9007199254740992 := by norm_num
  -- the scaled (by 2^1074) integer inequality
  have hkey : |((n * 2 ^ 1074 : ℕ) : ℤ) - ((M * 2 ^ P * 2 ^ 1074 : ℕ) : ℤ)|
      ≤ |((n * 2 ^ 1074 : ℕ) : ℤ) - sm * 2 ^ ((er + 1074).toNat)| := by
    rcases le_or_lt ((P : ℕ) : ℤ) er with hcase | hcase
    · -- the representable value is on the rounding grid
      have hk := rhoNat_nearest n (2 ^ P) hD (sm * 2 ^ (er - (P : ℤ)).toNat)
      rw [← hM] at hk
      have hk2 : |((M : ℤ) * 2 ^ P - n) * 2 ^ 1074|
          ≤ |((sm * 2 ^ (er - (P : ℤ)).toNat) * 2 ^ P - n) * 2 ^ 1074| := by
        rw [abs_mul, abs_mul, abs_of_nonneg (show (0:ℤ) ≤ 2 ^ 1074 by positivity)]
        apply mul_le_mul_of_nonneg_right ?_ (by positivity)
        have hcast : ((2 ^ P : ℕ) : ℤ) = (2 : ℤ) ^ P := by push_cast; rfl
        calc |(M : ℤ) * 2 ^ P - n| = |(M : ℤ) * ((2 ^ P : ℕ) : ℤ) - n| := by rw [hcast]
          _ ≤ |(sm * 2 ^ (er - (P : ℤ)).toNat) * ((2 ^ P : ℕ) : ℤ) - n| := hk
          _ = |(sm * 2 ^ (er - (P : ℤ)).toNat) * 2 ^ P - n| := by rw [hcast]
      have hBA : ((M : ℤ) * 2 ^ P - n) * 2 ^ 1074
          = ((M * 2 ^ P * 2 ^ 1074 : ℕ) : ℤ) - ((n * 2 ^ 1074 : ℕ) : ℤ) := by
        push_cast
        ring
      have hRA : ((sm * 2 ^ (er - (P : ℤ)).toNat) * 2 ^ P - n) * 2 ^ 1074
          = sm * 2 ^ ((er + 1074).toNat) - ((n * 2 ^ 1074 : ℕ) : ℤ) := by
        have hexp : (er - (P : ℤ)).toNat + (P + 1074) = (er + 1074).toNat := by omega
        push_cast
        rw [sub_mul, mul_assoc, mul_assoc, ← pow_add, ← pow_add, hexp]
      rw [hBA, hRA] at hk2
      rw [abs_sub_comm ((n * 2 ^ 1074 : ℕ) : ℤ), abs_sub_comm ((n * 2 ^ 1074 : ℕ) : ℤ)]
      exact hk2
    · -- the representable value is below the rounding grid
      have he2 : (er + 1074).toNat ≤ P + 1073 := by omega
      have hRabs : |sm * (2 : ℤ) ^ ((er + 1074).toNat)| ≤ (2 ^ 53 - 1) * 2 ^ (P + 1073) := by
        rw [abs_mul, abs_pow, abs_two]
        apply mul_le_mul ?h1 ?h2 (by positivity) (by positivity)
        case h1 => omega
        case h2 => exact pow_le_pow_right₀ (by norm_num) he2
      have hApow : (2 : ℤ) ^ (bitLen n - 1 + 1074) ≤ ((n * 2 ^ 1074 : ℕ) : ℤ) := by
        have h6 : (2 : ℕ) ^ (bitLen n - 1) * 2 ^ 1074 ≤ n * 2 ^ 1074 :=
          Nat.mul_le_mul_right _ hL1
        rw [← pow_add] at h6
        exact_mod_cast h6
      have hsplit : ((2 : ℤ) ^ 53 - 1) * 2 ^ (P + 1073)
          = 2 ^ (bitLen n - 1 + 1074) - 2 ^ (P + 1073) := by
        rw [sub_mul, one_mul, ← pow_add]
        congr 2
        omega
      have hAR : (2 : ℤ) ^ (P + 1073)
          ≤ ((n * 2 ^ 1074 : ℕ) : ℤ) - sm * 2 ^ ((er + 1074).toNat) := by
        have h5 : sm * (2 : ℤ) ^ ((er + 1074).toNat)
            ≤ |sm * (2 : ℤ) ^ ((er + 1074).toNat)| := le_abs_self _
        linarith
      have hABform : |((n * 2 ^ 1074 : ℕ) : ℤ) - ((M * 2 ^ P * 2 ^ 1074 : ℕ) : ℤ)|
          = |(M : ℤ) * 2 ^ P - n| * 2 ^ 1074 := by
        have hf : ((n * 2 ^ 1074 : ℕ) : ℤ) - ((M * 2 ^ P * 2 ^ 1074 : ℕ) : ℤ)
            = ((n : ℤ) - (M : ℤ) * 2 ^ P) * 2 ^ 1074 := by
          push_cast
          ring
        rw [hf, abs_mul, abs_of_nonneg (pow_nonneg (by norm_num : (0:ℤ) ≤ 2) 1074),
          abs_sub_comm]
      have hAB : |((n * 2 ^ 1074 : ℕ) : ℤ) - ((M * 2 ^ P * 2 ^ 1074 : ℕ) : ℤ)|
          ≤ 2 ^ (P + 1073) := by
        rw [hABform]
        have h8 : (2 * |(M : ℤ) * 2 ^ P - n|) * 2 ^ 1074 ≤ (2 : ℤ) ^ P * 2 ^ 1074 :=
          mul_le_mul_of_nonneg_right hdistZ (by positivity)
        have h9 : (2 : ℤ) ^ P * 2 ^ 1074 = 2 * 2 ^ (P + 1073) := by
          rw [← pow_add]
          have h10 : P + 1074 = (P + 1073) + 1 := by omega
          rw [h10, pow_succ]
          ring
        have h11 : 2 * (|(M : ℤ) * 2 ^ P - n| * 2 ^ 1074) ≤ 2 * 2 ^ (P + 1073) := by
          calc 2 * (|(M : ℤ) * 2 ^ P - n| * 2 ^ 1074)
              = (2 * |(M : ℤ) * 2 ^ P - n|) * 2 ^ 1074 := by ring
            _ ≤ (2 : ℤ) ^ P * 2 ^ 1074 := h8
            _ = 2 * 2 ^ (P + 1073) := h9
        linarith
      calc |((n * 2 ^ 1074 : ℕ) : ℤ) - ((M * 2 ^ P * 2 ^ 1074 : ℕ) : ℤ)|
          ≤ 2 ^ (P + 1073) := hAB
        _ ≤ ((n * 2 ^ 1074 : ℕ) : ℤ) - sm * 2 ^ ((er + 1074).toNat) := hAR
        _ ≤ |((n * 2 ^ 1074 : ℕ) : ℤ) - sm * 2 ^ ((er + 1074).toNat)| := le_abs_self _
  -- transfer the scaled inequality back to ℚ
  have hscalepos : (0 : ℚ) < (2 : ℚ) ^ (1074 : ℕ) := by positivity
  have hq1 : ((n : ℚ) - ((M * 2 ^ P : ℕ) : ℚ)) * (2 : ℚ) ^ (1074 : ℕ)
      = ((((n * 2 ^ 1074 : ℕ) : ℤ) - ((M * 2 ^ P * 2 ^ 1074 : ℕ) : ℤ) : ℤ) : ℚ) := by
    push_cast
    ring
  have hzp : (2 : ℚ) ^ er * (2 : ℚ) ^ (1074 : ℕ) = (((2 : ℤ) ^ ((er + 1074).toNat) : ℤ) : ℚ) := by
    rw [← zpow_natCast (2 : ℚ) 1074, ← zpow_add₀ (two_ne_zero)]
    have hnn : (0 : ℤ) ≤ er + 1074 := by omega
    rw [show er + ((1074 : ℕ) : ℤ) = er + 1074 by norm_num]
    rw [← Int.toNat_of_nonneg hnn, zpow_natCast]
    push_cast
    rfl
  have hq2 : ((n : ℚ) - r) * (2 : ℚ) ^ (1074 : ℕ)
      = ((((n * 2 ^ 1074 : ℕ) : ℤ) - sm * 2 ^ ((er + 1074).toNat) : ℤ) : ℚ) := by
    rw [hrq]
    have hstep : ((n : ℚ) - (sm : ℚ) * (2 : ℚ) ^ er) * (2 : ℚ) ^ (1074 : ℕ)
        = (n : ℚ) * (2 : ℚ) ^ (1074 : ℕ) - (sm : ℚ) * ((2 : ℚ) ^ er * (2 : ℚ) ^ (1074 : ℕ)) := by
      ring
    rw [hstep, hzp]
    push_cast
    ring
  have h6 : |((n : ℚ) - ((M * 2 ^ P : ℕ) : ℚ)) * (2 : ℚ) ^ (1074 : ℕ)|
      ≤ |((n : ℚ) - r) * (2 : ℚ) ^ (1074 : ℕ)| := by
    rw [hq1, hq2, ← Int.cast_abs, ← Int.cast_abs]
    exact_mod_cast hkey
  rw [abs_mul, abs_mul, abs_of_pos hscalepos] at h6
  exact le_of_mul_le_mul_right h6 hscalepos

theorem bitLen_big (n : ℕ) (hlo : 2 ^ 63 ≤ n) :
    n ≠ 0 ∧ 2 ^ (bitLen n - 1) ≤ n ∧ n < 2 ^ bitLen n ∧ 64 ≤ bitLen n := by
  have hn0 : n ≠ 0 := by
    have hpos : (0 : ℕ) < 2 ^ 63 := by positivity
    omega
  obtain ⟨hL1, hL2⟩ := bitLen_spec n hn0
  refine ⟨hn0, hL1, hL2, ?_⟩
  by_contra hcon
  push_neg at hcon
  have h2 : (2 : ℕ) ^ bitLen n ≤ 2 ^ 63 :=
    Nat.pow_le_pow_right (by norm_num) (by omega)
  omega

/-- In the finite range, `roundFloat64` on an integer returns a canonical
representable mantissa/exponent whose value is the grid-rounded one. -/
theorem roundFloat64_int_finite (n : ℕ) (hlo : 2 ^ 63 ≤ n)
    (hhi : n < 2 ^ 1024 - 2 ^ 970) :
    ∃ m : ℕ, ∃ p : ℤ, roundFloat64 n 1 = some (m, p) ∧
      (m : ℤ) < 2 ^ 53 ∧ -1074 ≤ p ∧ p ≤ 971 ∧
      (m : ℚ) * (2 : ℚ) ^ p
        = ((rhoNat n (2 ^ (bitLen n - 53)) * 2 ^ (bitLen n - 53) : ℕ) : ℚ) := by
  obtain ⟨hn0, hL1, hL2, hL64⟩ := bitLen_big n hlo
  have hn1024 : n < 2 ^ 1024 := by
    have hpos : (0 : ℕ) < 2 ^ 970 := by positivity
    omega
  have hL1024 : bitLen n ≤ 1024 := by
    by_contra hcon
    push_neg at hcon
    have h2 : (2 : ℕ) ^ 1024 ≤ 2 ^ (bitLen n - 1) :=
      Nat.pow_le_pow_right (by norm_num) (by omega)
    omega
  set P : ℕ := bitLen n - 53 with hP
  set M : ℕ := rhoNat n (2 ^ P) with hM
  have hD : 0 < 2 ^ P := by positivity
  have hpow53 : (2 : ℕ) ^ 53 * 2 ^ P = 2 ^ bitLen n := by
    rw [← pow_add]
    congr 1
    omega
  have hpow52 : (2 : ℕ) ^ 52 * 2 ^ P = 2 ^ (bitLen n - 1) := by
    rw [← pow_add]
    congr 1
    omega
  have hd_lt : n / 2 ^ P < 2 ^ 53 := by
    rw [Nat.div_lt_iff_lt_mul hD]
    omega
  have hm_le : M ≤ 2 ^ 53 := by
    have := rhoNat_le n (2 ^ P)
    omega
  have hd_ge : 2 ^ 52 ≤ n / 2 ^ P := by
    rw [Nat.le_div_iff_mul_le hD]
    omega
  have hm_ge : 2 ^ 52 ≤ M := le_trans hd_ge (rhoNat_ge n (2 ^ P))
  have hm0 : M ≠ 0 := by
    have hpos : (0 : ℕ) < 2 ^ 52 := by positivity
    omega
  have hdistZ : 2 * |(M : ℤ) * 2 ^ P - n| ≤ 2 ^ P := by
    have h0 := rhoNat_dist n (2 ^ P) hD
    rw [hM]
    exact_mod_cast h0
  have hP971 : P ≤ 971 := by omega
  have hDle : (2 : ℕ) ^ P ≤ 2 ^ 971 := Nat.pow_le_pow_right (by norm_num) hP971
  have hover : ¬ 2 ^ 1024 ≤ M * 2 ^ P := by
    have h1 : ((M : ℤ) * 2 ^ P - n) ≤ |(M : ℤ) * 2 ^ P - n| := le_abs_self _
    have h2 : 2 * ((M : ℤ) * 2 ^ P) ≤ 2 * (n : ℤ) + 2 ^ P := by linarith
    have h3 : ((2 ^ P : ℕ) : ℤ) = (2 : ℤ) ^ P := by push_cast; rfl
    have h4 : (2 : ℕ) ^ 971 = 2 * 2 ^ 970 := by rw [pow_succ]; ring
    have h5 : 2 * (M * 2 ^ P) ≤ 2 * n + 2 ^ P := by exact_mod_cast h2
    omega
  rw [roundFloat64_big_eval n hlo]
  rw [if_neg hover]
  by_cases hm53 : M = 2 ^ 53
  · rw [if_pos hm53]
    refine ⟨2 ^ 52, (bitLen n : ℤ) - 52, rfl, by norm_num, by omega, ?_, ?_⟩
    · -- exponent upper bound: the rounded value is below 2^1024
      have h6 : M * 2 ^ P = 2 ^ bitLen n := by rw [hm53]; omega
      have h7 : (2 : ℕ) ^ bitLen n < 2 ^ 1024 := by omega
      have h8 : bitLen n < 1024 :=
        (Nat.pow_lt_pow_iff_right (by norm_num)).mp h7
      omega
    · have hz : ((bitLen n : ℤ) - 52) = ((bitLen n - 52 : ℕ) : ℤ) := by omega
      rw [hz, zpow_natCast]
      push_cast [hm53]
      have hPP : bitLen n - 52 = P + 1 := by omega
      rw [hPP, pow_succ]
      ring
  · rw [if_neg hm53, if_neg hm0]
    refine ⟨M, (bitLen n : ℤ) - 53, rfl, ?_, by omega, by omega, ?_⟩
    · have h6 : M < 2 ^ 53 := by omega
      exact_mod_cast h6
    · have hz : ((bitLen n : ℤ) - 53) = ((P : ℕ) : ℤ) := by omega
      rw [hz, zpow_natCast]
      push_cast
      ring

/-- Integers at or beyond the float64 overflow midpoint round to infinity:
`roundFloat64` reports a range error. -/
theorem roundFloat64_int_overflow (n : ℕ) (hof : 2 ^ 1024 - 2 ^ 970 ≤ n) :
    roundFloat64 n 1 = none := by
  have hlo : 2 ^ 63 ≤ n := by
    have h1 : (2 : ℕ) ^ 63 ≤ 2 ^ 1024 - 2 ^ 970 := by norm_num
    omega
  obtain ⟨hn0, hL1, hL2, hL64⟩ := bitLen_big n hlo
  have hL1024 : 1024 ≤ bitLen n := by
    have h1 : (2 : ℕ) ^ 1023 ≤ 2 ^ 1024 - 2 ^ 970 := by norm_num
    by_contra hcon
    push_neg at hcon
    have h2 : (2 : ℕ) ^ bitLen n ≤ 2 ^ 1023 :=
      Nat.pow_le_pow_right (by norm_num) (by omega)
    omega
  rw [roundFloat64_big_eval n hlo]
  have hover : 2 ^ 1024 ≤ rhoNat n (2 ^ (bitLen n - 53)) * 2 ^ (bitLen n - 53) := by
    rcases Nat.lt_or_ge 1024 (bitLen n) with hL | hL
    · -- bitLen n ≥ 1025: even the floor of n / 2^P is at least 2^52·2^P ≥ 2^1024
      have hD : 0 < 2 ^ (bitLen n - 53) := by positivity
      have hpow52 : (2 : ℕ) ^ 52 * 2 ^ (bitLen n - 53) = 2 ^ (bitLen n - 1) := by
        rw [← pow_add]
        congr 1
        omega
      have hd_ge : 2 ^ 52 ≤ n / 2 ^ (bitLen n - 53) := by
        rw [Nat.le_div_iff_mul_le hD]
        omega
      have hm_ge : 2 ^ 52 ≤ rhoNat n (2 ^ (bitLen n - 53)) :=
        le_trans hd_ge (rhoNat_ge n _)
      have h7 : (2 : ℕ) ^ 1024 ≤ 2 ^ (bitLen n - 1) :=
        Nat.pow_le_pow_right (by norm_num) (by omega)
      calc (2 : ℕ) ^ 1024 ≤ 2 ^ (bitLen n - 1) := h7
        _ = 2 ^ 52 * 2 ^ (bitLen n - 53) := hpow52.symm
        _ ≤ rhoNat n (2 ^ (bitLen n - 53)) * 2 ^ (bitLen n - 53) :=
            Nat.mul_le_mul_right _ hm_ge
    · -- bitLen n = 1024 exactly: the tie goes up to 2^53 · 2^971 = 2^1024
      have hLeq : bitLen n = 1024 := by omega
      rw [hLeq]
      have hD : (0 : ℕ) < 2 ^ 971 := by positivity
      show (2 : ℕ) ^ 1024 ≤ rhoNat n (2 ^ 971) * 2 ^ 971
      rcases Nat.lt_or_ge (n / 2 ^ 971) (2 ^ 53) with hd53 | hd53
      · -- floor is 2^53 - 1 and the remainder is at least half: round up
        have hdlo : 2 ^ 53 - 1 ≤ n / 2 ^ 971 := by
          rw [Nat.le_div_iff_mul_le hD]
          have h8 : ((2 : ℕ) ^ 53 - 1) * 2 ^ 971 = 2 ^ 1024 - 2 ^ 971 := by norm_num
          have h9 : (2 : ℕ) ^ 971 ≤ 2 ^ 1024 := by norm_num
          have h10 : (2 : ℕ) ^ 970 ≤ 2 ^ 971 := by norm_num
          omega
        have hdeq : n / 2 ^ 971 = 2 ^ 53 - 1 := by omega
        have hmod := Nat.div_add_mod n (2 ^ 971)
        have hrge : 2 ^ 971 ≤ 2 * (n % 2 ^ 971) := by
          have h8 : (2 : ℕ) ^ 971 * (2 ^ 53 - 1) = 2 ^ 1024 - 2 ^ 971 := by norm_num
          have h9 : (2 : ℕ) ^ 971 ≤ 2 ^ 1024 := by norm_num
          have h10 : (2 : ℕ) ^ 970 ≤ 2 ^ 971 := by norm_num
          have h11 : 2 * (2 : ℕ) ^ 970 = 2 ^ 971 := by norm_num
          rw [hdeq] at hmod
          have h12 : n < 2 ^ 1024 := by
            have := bitLen_spec n hn0
            rw [hLeq] at this
            exact this.2
          omega
        have hodd : n / 2 ^ 971 % 2 = 1 := by
          rw [hdeq]
          norm_num
        have hup := rhoNat_tie_up n (2 ^ 971) hrge hodd
        rw [hup, hdeq]
        have h13 : ((2 : ℕ) ^ 53 - 1 + 1) * 2 ^ 971 = 2 ^ 1024 := by norm_num
        omega
      · calc (2 : ℕ) ^ 1024 = 2 ^ 53 * 2 ^ 971 := by norm_num
          _ ≤ n / 2 ^ 971 * 2 ^ 971 := Nat.mul_le_mul_right _ hd53
          _ ≤ rhoNat n (2 ^ 971) * 2 ^ 971 :=
              Nat.mul_le_mul_right _ (rhoNat_ge n _)
  rw [if_pos hover]

/-! ### `parseFloat64` on integer-lexical tokens -/

theorem isDig_toNat (c : Char) (h : isDig c = true) : 48 ≤ c.toNat ∧ c.toNat ≤ 57 := by
  unfold isDig at h
  simp only [Bool.and_eq_true, decide_eq_true_eq] at h
  exact h

theorem isDig_ne (c : Char) (h : isDig c = true) (a : Char)
    (ha : a.toNat < 48 ∨ 57 < a.toNat) : c ≠ a := by
  obtain ⟨h1, h2⟩ := isDig_toNat c h
  intro he
  subst he
  omega

theorem isDig_toLower (c : Char) (h : isDig c = true) : c.toLower = c := by
  obtain ⟨h1, h2⟩ := isDig_toNat c h
  unfold Char.toLower
  rw [if_neg (by omega : ¬(c.toNat ≥ 65 ∧ c.toNat ≤ 90))]

theorem lowerEq_head_ne (c : Char) (cs : List Char) (t : Char) (ts : List Char)
    (h : c.toLower ≠ t) : lowerEq (c :: cs) (t :: ts) = false := by
  unfold lowerEq
  rw [List.map_cons]
  rw [beq_eq_false_iff_ne]
  intro heq
  injection heq with h1 _
  exact h h1

theorem specialFloat_digits_sign (c : Char) (cs : List Char)
    (hc : c = '+' ∨ c = '-') (hne : cs ≠ []) (hall : cs.all isDig = true) :
    specialFloat (c :: cs) = none := by
  cases cs with
  | nil => exact absurd rfl hne
  | cons d rest =>
    simp only [List.all_cons, Bool.and_eq_true] at hall
    have hdl : d.toLower = d := isDig_toLower d hall.1
    have hdi : d.toLower ≠ 'i' := by
      rw [hdl]
      exact isDig_ne d hall.1 'i' (by decide)
    have hsig : (c = '+' || c = '-') = true := by
      rcases hc with rfl | rfl <;> simp
    simp only [specialFloat]
    rw [if_pos hsig]
    rw [lowerEq_head_ne d rest 'i' _ hdi, lowerEq_head_ne d rest 'i' _ hdi]
    simp

theorem specialFloat_digits (c : Char) (cs : List Char) (hall : (c :: cs).all isDig = true) :
    specialFloat (c :: cs) = none := by
  simp only [List.all_cons, Bool.and_eq_true] at hall
  have hcl : c.toLower = c := isDig_toLower c hall.1
  have hci : c.toLower ≠ 'i' := by
    rw [hcl]
    exact isDig_ne c hall.1 'i' (by decide)
  have hcn : c.toLower ≠ 'n' := by
    rw [hcl]
    exact isDig_ne c hall.1 'n' (by decide)
  have hsig : (c = '+' || c = '-') = false := by
    have h1 : c ≠ '+' := isDig_ne c hall.1 '+' (by decide)
    have h2 : c ≠ '-' := isDig_ne c hall.1 '-' (by decide)
    simp [h1, h2]
  simp only [specialFloat]
  rw [if_neg (by rw [hsig]; simp : ¬(c = '+' || c = '-') = true)]
  rw [lowerEq_head_ne c cs 'i' _ hci, lowerEq_head_ne c cs 'i' _ hci,
    lowerEq_head_ne c cs 'n' _ hcn]
  simp

theorem all_ne_of_digits (ds : List Char) (hall : ds.all isDig = true) (a : Char)
    (ha : a.toNat < 48 ∨ 57 < a.toNat) : ∀ x ∈ ds, x ≠ a := by
  intro x hx
  exact isDig_ne x (List.all_eq_true.mp hall x hx) a ha

theorem contains_false_of (cs : List Char) (a : Char) (h : ∀ c ∈ cs, c ≠ a) :
    cs.contains a = false := by
  induction cs with
  | nil => rfl
  | cons c rest ih =>
    have h1 : c ≠ a := h c (List.mem_cons_self _ _)
    have h2 := ih (fun x hx => h x (List.mem_cons_of_mem _ hx))
    simp only [List.contains_cons, h2, Bool.or_false]
    exact beq_eq_false_iff_ne.mpr (Ne.symm h1)

theorem filter_ne_self (cs : List Char) (a : Char) (h : ∀ c ∈ cs, c ≠ a) :
    cs.filter (fun c => c != a) = cs :=
  List.filter_eq_self.mpr (fun c hc => by
    simp only [bne_iff_ne, ne_eq]
    exact h c hc)

theorem scanDigitsAux_all : ∀ (ds : List Char), ds.all isDig = true →
    ∀ acc cnt, scanDigitsAux 10 isDig digVal ds acc cnt =
      (ds.foldl (fun a c => 10 * a + digVal c) acc, cnt + ds.length, []) := by
  intro ds
  induction ds with
  | nil =>
    intro _ acc cnt
    simp [scanDigitsAux]
  | cons d rest ih =>
    intro hall acc cnt
    simp only [List.all_cons, Bool.and_eq_true] at hall
    rw [scanDigitsAux, if_pos hall.1, ih hall.2]
    simp only [List.foldl_cons, List.length_cons]
    have harith : cnt + 1 + rest.length = cnt + (rest.length + 1) := by omega
    rw [harith]

theorem parseDecTail_digits (ds : List Char) (hne : ds ≠ []) (hall : ds.all isDig = true) :
    parseDecTail ds = some (natOfDigits ds, 0) := by
  unfold parseDecTail
  rw [scanDigitsAux_all ds hall 0 0]
  have hlen : ¬ (0 + ds.length = 0) := by
    cases ds with
    | nil => exact absurd rfl hne
    | cons d rest => simp
  simp only []
  rw [if_neg hlen]
  rfl

theorem parseFloatVal_digits (ds : List Char) (hne : ds ≠ []) (hall : ds.all isDig = true) :
    parseFloatVal ds = some (natOfDigits ds, 1) := by
  have hdec : (parseDecTail ds).map (fun p => decValue p.1 p.2)
      = some (natOfDigits ds, 1) := by
    rw [parseDecTail_digits ds hne hall]
    simp [decValue]
  cases ds with
  | nil => exact absurd rfl hne
  | cons c0 rest =>
    cases rest with
    | nil => simpa [parseFloatVal] using hdec
    | cons c1 rest2 =>
      simp only [List.all_cons, Bool.and_eq_true] at hall
      have hx : c1 ≠ 'x' := isDig_ne c1 hall.2.1 'x' (by decide)
      have hX : c1 ≠ 'X' := isDig_ne c1 hall.2.1 'X' (by decide)
      simp only [parseFloatVal]
      rw [if_neg (by simp [hx, hX])]
      simpa using hdec

theorem parseFloat64_intLex (s : String) (h1 : isIntLexical s = true) :
    parseFloat64 s = (roundFloat64 (intLexValue s).natAbs 1).map
      (fun me => F64.finite (lexNeg s) me.1 me.2) := by
  rcases hd : s.data with _ | ⟨c, cs⟩
  · unfold isIntLexical at h1
    rw [hd] at h1
    simp at h1
  · unfold isIntLexical at h1
    rw [hd] at h1
    unfold parseFloat64 intLexValue lexNeg
    rw [hd]
    by_cases hsig : (c = '+' || c = '-') = true
    · simp only [hsig, if_true] at h1 ⊢
      simp only [Bool.and_eq_true, Bool.not_eq_true'] at h1
      obtain ⟨hne0, hall⟩ := h1
      have hne : cs ≠ [] := by
        intro hcs
        rw [hcs] at hne0
        simp at hne0
      have hcor : c = '+' ∨ c = '-' := by
        simpa using hsig
      rw [specialFloat_digits_sign c cs hcor hne hall]
      have hnall : ∀ x ∈ (c :: cs), x ≠ '_' := by
        intro x hx
        rcases List.mem_cons.mp hx with rfl | hx2
        · rcases hcor with rfl | rfl <;> decide
        · exact all_ne_of_digits cs hall '_' (by decide) x hx2
      rw [contains_false_of _ '_' hnall]
      simp only [Bool.false_and, Bool.false_eq_true, if_false]
      rw [filter_ne_self _ '_' hnall]
      rcases hcor with rfl | rfl
      · dsimp only
        rw [if_neg (by decide : ¬('+' : Char) = '-'), if_pos rfl]
        dsimp only
        rw [parseFloatVal_digits cs hne hall]
        cases hopt : roundFloat64 (natOfDigits cs) 1 with
        | none => simp [hopt]
        | some me => simp [hopt]
      · dsimp only
        rw [if_pos rfl]
        dsimp only
        rw [parseFloatVal_digits cs hne hall]
        cases hopt : roundFloat64 (natOfDigits cs) 1 with
        | none => simp [hopt]
        | some me => simp [hopt]
    · simp only [Bool.not_eq_true] at hsig
      simp only [hsig, Bool.false_eq_true, if_false] at h1 ⊢
      simp only [Bool.and_eq_true, Bool.not_eq_true'] at h1
      obtain ⟨hne0, hall⟩ := h1
      have hcp : ¬ c = '+' := by
        intro hc
        rw [hc] at hsig
        simp at hsig
      have hcm : ¬ c = '-' := by
        intro hc
        rw [hc] at hsig
        simp at hsig
      rw [specialFloat_digits c cs hall]
      have hnall : ∀ x ∈ (c :: cs), x ≠ '_' :=
        all_ne_of_digits (c :: cs) hall '_' (by decide)
      rw [contains_false_of _ '_' hnall]
      simp only [Bool.false_and, Bool.false_eq_true, if_false]
      rw [filter_ne_self _ '_' hnall]
      dsimp only
      rw [if_neg hcm, if_neg hcp]
      dsimp only
      rw [parseFloatVal_digits (c :: cs) (by simp) hall]
      cases hopt : roundFloat64 (natOfDigits (c :: cs)) 1 with
      | none => simp [hopt, hcm]
      | some me => simp [hopt, hcm]

theorem float64Rep_neg (q : ℚ) (h : float64Rep q) : float64Rep (-q) := by
  obtain ⟨sm, e, hs1, hs2, hs3, hs4⟩ := h
  refine ⟨-sm, e, by rwa [abs_neg], hs2, hs3, ?_⟩
  rw [hs4]
  push_cast
  ring

theorem intLexValue_sign (s : String) (h1 : isIntLexical s = true) :
    intLexValue s = (if lexNeg s then -1 else 1) * ((intLexValue s).natAbs : ℤ) := by
  rcases hd : s.data with _ | ⟨c, cs⟩
  · unfold isIntLexical at h1
    rw [hd] at h1
    simp at h1
  · unfold intLexValue lexNeg
    rw [hd]
    by_cases hneg : c = '-'
    · simp only [hneg, if_true]
      simp [Int.natAbs_neg]
    · simp only [hneg, if_false]
      simp [hneg, Int.natAbs_ofNat]

/-! ### Claim theorems: out-of-range integer literals (C10) -/

/-- Claim C10 counterexample: the 310-digit literal `10^309` is lexically an
integer outside the int64 range, yet the decoded variant is String, not
Float — `strconv.ParseFloat` overflows to infinity with `ErrRange`, so the
token falls through to the string fallback. -/
theorem dropwizard_C10_counterexample :
    isIntLexical "1000000000000000000000000000000000000000000000000000000000000000000000000000000000000000000000000000000000000000000000000000000000000000000000000000000000000000000000000000000000000000000000000000000000000000000000000000000000000000000000000000000000000000000000000000000000000000000000000000000000000000000000" = true
  ∧ ¬ int64Range (intLexValue "1000000000000000000000000000000000000000000000000000000000000000000000000000000000000000000000000000000000000000000000000000000000000000000000000000000000000000000000000000000000000000000000000000000000000000000000000000000000000000000000000000000000000000000000000000000000000000000000000000000000000000000000")
  ∧ (gaugeValue.UnmarshalJSON "1000000000000000000000000000000000000000000000000000000000000000000000000000000000000000000000000000000000000000000000000000000000000000000000000000000000000000000000000000000000000000000000000000000000000000000000000000000000000000000000000000000000000000000000000000000000000000000000000000000000000000000000").toOption.map gaugeValue.typ
      = some gaugeValueType.StringType := by
  refine ⟨by decide, by decide, by decide⟩

/-- Claim C10 (amended): an integer-lexical token whose value is outside the
int64 range decodes to the Float variant holding the nearest representable
`float64` value, provided its magnitude is below the overflow midpoint
`2^1024 - 2^970`; at or beyond that midpoint the float parse fails with a
range error and the token degrades to the String variant. -/
theorem dropwizard_C10 (s : String) (h1 : isIntLexical s = true)
    (h2 : ¬ int64Range (intLexValue s)) :
    ((intLexValue s).natAbs < 2 ^ 1024 - 2 ^ 970 →
      ∃ m : ℕ, ∃ p : ℤ, ∃ v : ℚ,
        gaugeValue.UnmarshalJSON s =
          .ok { FloatValue := .finite (lexNeg s) m p, typ := .FloatType } ∧
        (F64.finite (lexNeg s) m p).val = some v ∧
        float64Rep v ∧
        ∀ r : ℚ, float64Rep r →
          |(intLexValue s : ℚ) - v| ≤ |(intLexValue s : ℚ) - r|)
  ∧ (2 ^ 1024 - 2 ^ 970 ≤ (intLexValue s).natAbs →
      gaugeValue.UnmarshalJSON s =
        .ok { StringValue := stringsTrimQuote s, typ := .StringType }) := by
  have hAbs : 2 ^ 63 ≤ (intLexValue s).natAbs := by
    unfold int64Range at h2
    have hp : (2 : ℕ) ^ 63 = 9223372036854775808 := by norm_num
    omega
  have hpi := parseInt64_lex_none s h1 h2
  have hpf := parseFloat64_intLex s h1
  have hsign := intLexValue_sign s h1
  constructor
  · intro hlt
    obtain ⟨m, p, hround, hm53, hp1, hp2, hval⟩ :=
      roundFloat64_int_finite (intLexValue s).natAbs hAbs hlt
    refine ⟨m, p, (if lexNeg s then (-1 : ℚ) else 1) * (m : ℚ) * (2 : ℚ) ^ p,
      ?_, rfl, ?_, ?_⟩
    · unfold gaugeValue.UnmarshalJSON
      rw [hpi, hpf, hround]
      rfl
    · have hbase : float64Rep ((m : ℚ) * (2 : ℚ) ^ p) := by
        have hmabs : |(m : ℤ)| = (m : ℤ) := abs_of_nonneg (Int.natCast_nonneg m)
        refine ⟨(m : ℤ), p, ?_, hp1, hp2, by push_cast; ring⟩
        rw [hmabs]
        exact hm53
      cases hneg : lexNeg s
      · simpa using hbase
      · have hneg2 := float64Rep_neg _ hbase
        have hrw : ((-1 : ℚ)) * (m : ℚ) * (2 : ℚ) ^ p = -((m : ℚ) * (2 : ℚ) ^ p) := by
          ring
        simpa [hrw] using hneg2
    · intro r hrep
      set k := (intLexValue s).natAbs
      have hn2 := roundNearest_int k hAbs
      cases hneg : lexNeg s
      · rw [hneg] at hsign
        norm_num at hsign
        have hnq : ((intLexValue s : ℤ) : ℚ) = (k : ℚ) := by
          rw [hsign]
          push_cast
          ring
        have hif : (if ((false : Bool) = true) then (-1 : ℚ) else 1) = 1 := by norm_num
        rw [hif, one_mul, hnq]
        have hn3 := hn2 r hrep
        rw [← hval] at hn3
        exact hn3
      · rw [hneg] at hsign
        norm_num at hsign
        have hnq : ((intLexValue s : ℤ) : ℚ) = -(k : ℚ) := by
          rw [hsign]
          push_cast
          ring
        have hif : (if ((true : Bool) = true) then (-1 : ℚ) else 1) = -1 := by norm_num
        rw [hif, hnq]
        have hn3 := hn2 (-r) (float64Rep_neg r hrep)
        rw [← hval] at hn3
        have habs1 : |(-(k : ℚ)) - (-1 : ℚ) * (m : ℚ) * (2 : ℚ) ^ p|
            = |(k : ℚ) - (m : ℚ) * (2 : ℚ) ^ p| := by
          rw [show (-(k : ℚ)) - (-1 : ℚ) * (m : ℚ) * (2 : ℚ) ^ p
              = -((k : ℚ) - (m : ℚ) * (2 : ℚ) ^ p) from by ring]
          rw [abs_neg]
        have habs2 : |(-(k : ℚ)) - r| = |(k : ℚ) - -r| := by
          rw [show (-(k : ℚ)) - r = -((k : ℚ) - -r) from by ring]
          rw [abs_neg]
        rw [habs1, habs2]
        exact hn3
  · intro hge
    have hnone : parseFloat64 s = none := by
      rw [hpf, roundFloat64_int_overflow _ hge]
      rfl
    unfold gaugeValue.UnmarshalJSON
    rw [hpi, hnone]

/-- Claim C10 witness: `9223372036854775808` (= `2^63`, just outside int64)
decodes to the Float variant holding the nearest `float64`. -/
theorem dropwizard_C10_witness :
    ∃ m : ℕ, ∃ p : ℤ, ∃ v : ℚ,
      gaugeValue.UnmarshalJSON "9223372036854775808" =
        .ok { FloatValue := .finite (lexNeg "9223372036854775808") m p,
              typ := .FloatType } ∧
      (F64.finite (lexNeg "9223372036854775808") m p).val = some v ∧
      float64Rep v ∧
      ∀ r : ℚ, float64Rep r →
        |(intLexValue "9223372036854775808" : ℚ) - v|
          ≤ |(intLexValue "9223372036854775808" : ℚ) - r| :=
  (dropwizard_C10 "9223372036854775808" (by decide) (by decide)).1 (by decide)

end DW
